import Mathlib

/-!
# Console Tic-Tac-Toe: embedding of `src/tic_tac_toe.cpp`

The class `TicTacToe` keeps the grid in `std::vector<char> board`, which every
member function indexes at positions 0..8.  A cell holds `'X'`, `'O'`, or the
digit written there by `initializeBoard` (`'1' + i` for cell `i`).

Member functions that only touch `board` are embedded as functions of the
board; the ones that write it (`checkPotentialWin`, `getAIMoveIndex`) return
the board they leave behind next to their C++ result.  Functions that touch
the other fields work on the record `TicTacToe`.  Console output is dropped.

The declaration `std::vector<char> board;` carries no size and nothing resizes
the vector; statements that depend on the nine cells assume `board.length = 9`.
The constructor is embedded with the writes of `initializeBoard` checked against
the size of the vector (`construct`).  The `int` counters are integers raised by
`incrInt`, the 32-bit increment.

The console is a list of entries, one per `std::cin >> choice`: `none` when the
extraction fails, `some n` for a number.  The loop `while (gameStatus)` of
`runGame` is embedded with a bound on its passes (`roundLoop`); the theorems on
rounds show that nine passes are never used up.
-/

/-- The fields of `class TicTacToe`. -/
structure TicTacToe where
  board : List Char
  currentPlayer : Char
  gameStatus : Bool
  playerXWins : Int
  playerOWins : Int
  draws : Int
  totalGames : Int
deriving DecidableEq, Repr

namespace TicTacToe

/-- Storage of the grid, `std::vector<char>`. -/
abbrev Board := List Char

/-- Read of `board[i]`. -/
def cell (board : Board) (i : Nat) : Char := board.getD i (Char.ofNat 0)

/-- The character `(char)('1' + i)` that `initializeBoard` stores in cell `i`. -/
def emptyLabel (i : Nat) : Char := Char.ofNat ('1'.toNat + i)

/-- Loop of `initializeBoard` over the grid: `board[i] = (char)('1' + i)` for `i = 0..8`. -/
def initializeCells (board : Board) : Board :=
  (List.range 9).foldl (fun bd i => bd.set i (emptyLabel i)) board

/-- Member `initializeBoard`: fresh grid, X to move, round ongoing.  The nine writes are
inside the vector when it has nine cells, which every statement about this function
assumes; `initializeCellsChecked` is the loop with the bound checked. -/
def initializeBoard (g : TicTacToe) : TicTacToe :=
  { g with board := initializeCells g.board, currentPlayer := 'X', gameStatus := true }

/-- Member `checkWin`: three rows, three columns, two diagonals, compared by equality. -/
def checkWin (board : Board) : Bool :=
  [0, 3, 6].any (fun i =>
      cell board i == cell board (i + 1) && cell board (i + 1) == cell board (i + 2))
  || ([0, 1, 2].any (fun i =>
      cell board i == cell board (i + 3) && cell board (i + 3) == cell board (i + 6))
  || ((cell board 0 == cell board 4 && cell board 4 == cell board 8)
      || (cell board 2 == cell board 4 && cell board 4 == cell board 6)))

/-- Member `checkDraw`: false as soon as some stored character lies in `'1'..'9'`. -/
def checkDraw (board : Board) : Bool :=
  !(board.any (fun c => decide ('1' ≤ c) && decide (c ≤ '9')))

/-- Member `switchPlayer`. -/
def switchPlayer (g : TicTacToe) : TicTacToe :=
  { g with currentPlayer := if g.currentPlayer == 'X' then 'O' else 'X' }

/-- Member `checkPotentialWin`: test move, `checkWin`, undo.  Returns the answer and the
board as left by the call. -/
def checkPotentialWin (board : Board) (i : Nat) (player : Char) : Bool × Board :=
  let originalChar := cell board i
  if originalChar == 'X' || originalChar == 'O' then (false, board)
  else
    let board1 := board.set i player
    let isWin := checkWin board1
    let board2 := board1.set i originalChar
    (isWin, board2)

/-- A loop `for i ... if (checkPotentialWin(i, player)) return i;` over the given indices,
threading the board through the calls. -/
def scanPotentialWin (player : Char) : List Nat → Board → Option Nat × Board
  | [], board => (none, board)
  | i :: rest, board =>
    let r := checkPotentialWin board i player
    if r.1 then (some i, r.2) else scanPotentialWin player rest r.2

/-- Test `board[index] != 'X' && board[index] != 'O'` used by the heuristics. -/
def isFree (board : Board) (index : Nat) : Bool :=
  cell board index != 'X' && cell board index != 'O'

/-- Member `getAIMoveIndex`: win, block, centre, corners, edges, else `-1`.  Returns the
chosen index and the board as left by the call. -/
def getAIMoveIndex (board : Board) : Int × Board :=
  match scanPotentialWin 'O' (List.range 9) board with
  | (some i, b1) => ((i : Int), b1)
  | (none, b1) =>
    match scanPotentialWin 'X' (List.range 9) b1 with
    | (some i, b2) => ((i : Int), b2)
    | (none, b2) =>
      if isFree b2 4 then (4, b2)
      else
        match [0, 2, 6, 8].find? (fun index => isFree b2 index) with
        | some index => ((index : Int), b2)
        | none =>
          match [1, 3, 5, 7].find? (fun index => isFree b2 index) with
          | some index => ((index : Int), b2)
          | none => (-1, b2)

/-- The answer of `checkPotentialWin(i, player)` read off the board: the cell is not taken
and `checkWin` holds with the test move in place. -/
def winTest (board : Board) (player : Char) (i : Nat) : Bool :=
  isFree board i && checkWin (board.set i player)

/-- The increment `n++` of an `int` field: 32-bit two's complement, so that 2147483647
(`INT_MAX`) is followed by -2147483648. -/
def incrInt (n : Int) : Int := (n + 1 + 2147483648) % 4294967296 - 2147483648

/-- Body of the round loop in `runGame` after a move has been made: win check, then draw
check, else hand the turn over. -/
def checkGameState (g : TicTacToe) : TicTacToe :=
  if checkWin g.board then
    if g.currentPlayer == 'X' then
      { g with playerXWins := incrInt g.playerXWins, gameStatus := false }
    else
      { g with playerOWins := incrInt g.playerOWins, gameStatus := false }
  else if checkDraw g.board then
    { g with draws := incrInt g.draws, gameStatus := false }
  else
    switchPlayer g

/-- One pass of the `while (!validMove)` loop of `getPlayerMove` on one console entry:
`none` when `std::cin >> choice` fails, `some choice` for a number.  Returns the state and
`validMove`. -/
def playerMoveAttempt (g : TicTacToe) (entry : Option Int) : TicTacToe × Bool :=
  match entry with
  | none => (g, false)
  | some choice =>
    if decide (choice ≥ 1) && decide (choice ≤ 9) then
      let index := (choice - 1).toNat
      if cell g.board index != 'X' && cell g.board index != 'O' then
        ({ g with board := g.board.set index g.currentPlayer }, true)
      else (g, false)
    else (g, false)

/-- Member `getPlayerMove`: attempts are repeated over the console entries until one is
valid.  `none` when the entries run out while the loop is still asking. -/
def getPlayerMove (g : TicTacToe) : List (Option Int) → Option (TicTacToe × List (Option Int))
  | [] => none
  | entry :: rest =>
    let r := playerMoveAttempt g entry
    if r.2 then some (r.1, rest) else getPlayerMove r.1 rest

/-- Member `processAIMove`: the chosen index, when it is not `-1`, receives the mark of
the current player. -/
def processAIMove (g : TicTacToe) : TicTacToe :=
  let r := getAIMoveIndex g.board
  if r.1 != -1 then { g with board := r.2.set r.1.toNat g.currentPlayer }
  else { g with board := r.2 }

/-- One pass of the loop `while (gameStatus)` of `runGame`: the move of the side to play
(human for X, AI otherwise), then the state check. -/
def playTurn (g : TicTacToe) (inputs : List (Option Int)) :
    Option (TicTacToe × List (Option Int)) :=
  let moved :=
    if g.currentPlayer == 'X' then getPlayerMove g inputs else some (processAIMove g, inputs)
  match moved with
  | none => none
  | some (g1, rest) => some (checkGameState g1, rest)

/-- How a run of the round loop over finitely many console entries ends. -/
inductive RoundResult where
  | decided (g : TicTacToe) (rest : List (Option Int))
  | awaitingInput
  | outOfFuel
deriving DecidableEq, Repr

/-- The loop `while (gameStatus)` of `runGame`, bounded by a number of passes. -/
def roundLoop : Nat → TicTacToe → List (Option Int) → RoundResult
  | 0, g, inputs => if g.gameStatus then .outOfFuel else .decided g inputs
  | fuel + 1, g, inputs =>
    if g.gameStatus then
      match playTurn g inputs with
      | none => .awaitingInput
      | some (g1, rest) => roundLoop fuel g1 rest
    else .decided g inputs

/-- One round of `runGame`: `totalGames++`, `initializeBoard()`, then the round loop. -/
def playRound (fuel : Nat) (g : TicTacToe) (inputs : List (Option Int)) : RoundResult :=
  roundLoop fuel (initializeBoard { g with totalGames := incrInt g.totalGames }) inputs

/-- The assignment `board[i] = c` on a `std::vector`: it has a defined result only for
`i < board.size()`. -/
def writeCell (board : Board) (i : Nat) (c : Char) : Option Board :=
  if i < board.length then some (board.set i c) else none

/-- The loop of `initializeBoard` with the bound of every write checked: `none` as soon as
a write falls outside the vector.  On nine cells it is `initializeCells`. -/
def initializeCellsChecked (board : Board) : Option Board :=
  (List.range 9).foldlM (fun bd i => writeCell bd i (emptyLabel i)) board

/-- The constructor `TicTacToe()`: the four counters are set to zero, `board` is
default-constructed (a vector with no cells, never resized), and `initializeBoard()` runs
on it.  `none`: a write of `initializeBoard` falls outside the vector. -/
def construct : Option TicTacToe :=
  (initializeCellsChecked []).map fun cells =>
    { board := cells, currentPlayer := 'X', gameStatus := true,
      playerXWins := 0, playerOWins := 0, draws := 0, totalGames := 0 }

/-! ## Vocabulary of the specification -/

/-- A board as the game produces it: nine cells, cell `i` holding `'X'`, `'O'` or its own
label `'1' + i`. -/
def Reachable (board : Board) : Prop :=
  board.length = 9 ∧
    ∀ i, i < 9 → cell board i = 'X' ∨ cell board i = 'O' ∨ cell board i = emptyLabel i

instance decReachable (board : Board) : Decidable (Reachable board) := by
  unfold Reachable; infer_instance

/-- The eight fixed index triples: rows, columns, diagonals. -/
def winLines : List (Nat × Nat × Nat) :=
  [(0, 1, 2), (3, 4, 5), (6, 7, 8), (0, 3, 6), (1, 4, 7), (2, 5, 8), (0, 4, 8), (2, 4, 6)]

/-- All three cells of line `l` hold the mark `side`. -/
def lineHeldBy (board : Board) (side : Char) (l : Nat × Nat × Nat) : Prop :=
  cell board l.1 = side ∧ cell board l.2.1 = side ∧ cell board l.2.2 = side

instance decLineHeldBy (board : Board) (side : Char) (l : Nat × Nat × Nat) :
    Decidable (lineHeldBy board side l) := by
  unfold lineHeldBy; infer_instance

/-- Some line of the board holds three marks of `side`. -/
def threeInLine (board : Board) (side : Char) : Prop :=
  ∃ l ∈ winLines, lineHeldBy board side l

instance decThreeInLine (board : Board) (side : Char) : Decidable (threeInLine board side) := by
  unfold threeInLine; infer_instance

/-- The specification's `hasWinningLine`: some line is uniformly X or uniformly O. -/
def hasWinningLine (board : Board) : Prop :=
  ∃ l ∈ winLines, lineHeldBy board 'X' l ∨ lineHeldBy board 'O' l

instance decHasWinningLine (board : Board) : Decidable (hasWinningLine board) := by
  unfold hasWinningLine; infer_instance

/-- Cell `i` is Empty: it still shows its label. -/
def isEmptyCell (board : Board) (i : Nat) : Prop := cell board i = emptyLabel i

instance decIsEmptyCell (board : Board) (i : Nat) : Decidable (isEmptyCell board i) := by
  unfold isEmptyCell; infer_instance

/-- Cell `i` is Empty and a mark of `side` placed there gives `side` three in a line. -/
def immediateWin (board : Board) (side : Char) (i : Nat) : Prop :=
  isEmptyCell board i ∧ threeInLine (board.set i side) side

instance decImmediateWin (board : Board) (side : Char) (i : Nat) :
    Decidable (immediateWin board side i) := by
  unfold immediateWin; infer_instance

/-- Number of cells of the board that hold the mark `side`. -/
def marks (board : Board) (side : Char) : Nat := board.count side

/-- The states at the head of the loop `while (gameStatus)` in the course of one round:
the state left by `initializeBoard` on a grid of nine cells, and every state left by a
pass of the loop from such a state. -/
inductive InRound : TicTacToe → Prop where
  | start (g0 : TicTacToe) (h : g0.board.length = 9) : InRound (initializeBoard g0)
  | turn {g g1 : TicTacToe} {inputs rest : List (Option Int)} :
      InRound g → g.gameStatus = true → playTurn g inputs = some (g1, rest) → InRound g1

/-- The states of the object after `n` completed rounds: an object with a grid of nine
cells and the four counters at zero (as the initialiser list of the constructor sets
them), and the state every completed round leaves from such a state. -/
inductive AfterRounds : Nat → TicTacToe → Prop where
  | fresh (g : TicTacToe) (h9 : g.board.length = 9) (hx : g.playerXWins = 0)
      (ho : g.playerOWins = 0) (hd : g.draws = 0) (ht : g.totalGames = 0) : AfterRounds 0 g
  | round {n : Nat} {g g1 : TicTacToe} {fuel : Nat} {inputs rest : List (Option Int)} :
      AfterRounds n g → playRound fuel g inputs = RoundResult.decided g1 rest →
      AfterRounds (n + 1) g1

/-- The console names every cell: each of the numbers 1..9 occurs among the entries. -/
def NamesEveryCell (inputs : List (Option Int)) : Prop :=
  ∀ i : Nat, i < 9 → some ((i : Int) + 1) ∈ inputs

instance decNamesEveryCell (inputs : List (Option Int)) : Decidable (NamesEveryCell inputs) := by
  unfold NamesEveryCell; infer_instance

/-- Every Empty cell of the board is still named by an entry of the console. -/
def Supplied (g : TicTacToe) (inputs : List (Option Int)) : Prop :=
  ∀ i : Nat, i < 9 → isEmptyCell g.board i → some ((i : Int) + 1) ∈ inputs

/-- What holds of every state at the head of the round loop: the board is reachable, the
side to move is X or O, the marks alternate starting with X, an ongoing round shows no
complete line and an Empty cell, and a finished one shows a win or a full board. -/
def RoundInv (g : TicTacToe) : Prop :=
  Reachable g.board ∧
  (g.currentPlayer = 'X' ∨ g.currentPlayer = 'O') ∧
  (g.gameStatus = true →
    ¬ hasWinningLine g.board ∧ (∃ i, i < 9 ∧ isEmptyCell g.board i) ∧
    ((g.currentPlayer = 'X' ∧ marks g.board 'X' = marks g.board 'O') ∨
      (g.currentPlayer = 'O' ∧ marks g.board 'X' = marks g.board 'O' + 1))) ∧
  (g.gameStatus = false → checkWin g.board = true ∨ checkDraw g.board = true) ∧
  marks g.board 'O' ≤ marks g.board 'X' ∧ marks g.board 'X' ≤ marks g.board 'O' + 1

/-- The counters of `after` are those of `before` with exactly one of them raised through
`raise`, the one that matches the final board: the win counter of the side that moved
last when `checkWin` holds, the draw counter when it does not and `checkDraw` holds. -/
def RoundCountedBy (raise : Int → Int) (before after : TicTacToe) : Prop :=
  (checkWin after.board = true ∧ after.currentPlayer = 'X' ∧
    after.playerXWins = raise before.playerXWins ∧
    after.playerOWins = before.playerOWins ∧ after.draws = before.draws) ∨
  (checkWin after.board = true ∧ after.currentPlayer = 'O' ∧
    after.playerOWins = raise before.playerOWins ∧
    after.playerXWins = before.playerXWins ∧ after.draws = before.draws) ∨
  (checkWin after.board = false ∧ checkDraw after.board = true ∧
    after.draws = raise before.draws ∧ after.playerXWins = before.playerXWins ∧
    after.playerOWins = before.playerOWins)

/-- Exactly one outcome counter is raised by one, the one matching the final board. -/
def RoundCounted (before after : TicTacToe) : Prop :=
  RoundCountedBy (fun n => n + 1) before after

/-- An object with a grid of nine cells and all four counters at zero. -/
def freshObject : TicTacToe :=
  { board := List.replicate 9 (Char.ofNat 0), currentPlayer := 'X', gameStatus := true,
    playerXWins := 0, playerOWins := 0, draws := 0, totalGames := 0 }

/-- The state after the round in which the human plays cells 0, 8, 6 and 7, from zero
counters. -/
def afterXWin : TicTacToe :=
  { board := ['X', '2', 'O', 'O', 'O', '6', 'X', 'X', 'X'], currentPlayer := 'X',
    gameStatus := false, playerXWins := 1, playerOWins := 0, draws := 0, totalGames := 1 }

/-- A console that names every cell, starting with the entries 1, 9, 7, 8. -/
def everyCell : List (Option Int) :=
  [some 1, some 9, some 7, some 8, some 2, some 3, some 4, some 5, some 6]

/-- An object between rounds whose counters stand at the last value of an `int`:
2147483647 rounds played, 2147483646 won by X and one by O. -/
def lastRoundStart : TicTacToe :=
  { board := ['X', '2', 'O', 'O', 'O', '6', 'X', 'X', 'X'], currentPlayer := 'X',
    gameStatus := false, playerXWins := 2147483646, playerOWins := 1, draws := 0,
    totalGames := 2147483647 }

/-- The state after one more round won by X from `lastRoundStart`. -/
def lastRoundEnd : TicTacToe :=
  { board := ['X', '2', 'O', 'O', 'O', '6', 'X', 'X', 'X'], currentPlayer := 'X',
    gameStatus := false, playerXWins := 2147483647, playerOWins := 1, draws := 0,
    totalGames := -2147483648 }

/-- The full board of the draw example. -/
def drawExample : Board := ['X', 'O', 'X', 'O', 'X', 'O', 'O', 'X', 'O']

/-- A state in mid-round with O (the AI) to move. -/
def midRound : TicTacToe :=
  { board := ['X', '2', '3', '4', 'O', '6', '7', '8', 'X'], currentPlayer := 'O',
    gameStatus := true, playerXWins := 0, playerOWins := 0, draws := 0, totalGames := 1 }

/-- The board of the block scenario: X on 0 and 1, O on 3 and 4, the rest Empty. -/
def blockScenario : Board := ['X', 'X', '3', 'O', 'O', '6', '7', '8', '9']

/-- A round state whose board is full and holds the diagonal 2,4,6 for X, X having just
moved. -/
def fullBoardWin : TicTacToe :=
  { board := ['X', 'O', 'X', 'O', 'X', 'O', 'X', 'X', 'O'], currentPlayer := 'X',
    gameStatus := true, playerXWins := 0, playerOWins := 0, draws := 0, totalGames := 1 }

/-- A round state in the middle of a round, before the next round is set up. -/
def usedBoard : TicTacToe :=
  { board := ['X', 'O', '3', '4', 'X', '6', '7', '8', 'O'], currentPlayer := 'O',
    gameStatus := false, playerXWins := 2, playerOWins := 1, draws := 0, totalGames := 3 }

/-! ## Cells and labels -/

theorem emptyLabel_ne_X {i : Nat} (hi : i < 9) : emptyLabel i ≠ 'X' := by
  interval_cases i <;> decide

theorem emptyLabel_ne_O {i : Nat} (hi : i < 9) : emptyLabel i ≠ 'O' := by
  interval_cases i <;> decide

theorem emptyLabel_inj {i j : Nat} (hi : i < 9) (hj : j < 9)
    (h : emptyLabel i = emptyLabel j) : i = j := by
  interval_cases i <;> interval_cases j <;> first | rfl | (exact absurd h (by decide))

theorem emptyLabel_digit {i : Nat} (hi : i < 9) : '1' ≤ emptyLabel i ∧ emptyLabel i ≤ '9' := by
  interval_cases i <;> decide

theorem cell_set_self (board : Board) (i : Nat) (c : Char) (hi : i < board.length) :
    cell (board.set i c) i = c := by
  simp [cell, List.getD_eq_getElem?_getD, hi]

theorem cell_set_of_ne (board : Board) {i j : Nat} (c : Char) (h : j ≠ i) :
    cell (board.set i c) j = cell board j := by
  simp [cell, List.getD_eq_getElem?_getD, List.getElem?_set_ne (Ne.symm h)]

theorem winLines_bounds : ∀ l ∈ winLines,
    l.1 < 9 ∧ l.2.1 < 9 ∧ l.2.2 < 9 ∧ l.1 ≠ l.2.1 ∧ l.2.1 ≠ l.2.2 ∧ l.1 ≠ l.2.2 := by
  decide

theorem reachable_set {board : Board} (h : Reachable board) {i : Nat} (hi : i < 9)
    {c : Char} (hc : c = 'X' ∨ c = 'O') : Reachable (board.set i c) := by
  refine ⟨by simpa using h.1, fun j hj => ?_⟩
  by_cases hji : j = i
  · subst hji
    rw [cell_set_self board j c (by rw [h.1]; exact hj)]
    rcases hc with hc | hc <;> simp [hc]
  · rw [cell_set_of_ne board c hji]
    exact h.2 j hj

/-- On a reachable board three equal cells at distinct positions are three X or three O. -/
theorem equal_cells_iff {board : Board} (h : Reachable board) {i j k : Nat}
    (hi : i < 9) (hj : j < 9) (hij : i ≠ j) :
    (cell board i = cell board j ∧ cell board j = cell board k) ↔
      ((cell board i = 'X' ∧ cell board j = 'X' ∧ cell board k = 'X') ∨
        (cell board i = 'O' ∧ cell board j = 'O' ∧ cell board k = 'O')) := by
  constructor
  · rintro ⟨h1, h2⟩
    rcases h.2 i hi with hx | ho | he
    · exact Or.inl ⟨hx, h1 ▸ hx, h2 ▸ h1 ▸ hx⟩
    · exact Or.inr ⟨ho, h1 ▸ ho, h2 ▸ h1 ▸ ho⟩
    · exfalso
      rcases h.2 j hj with hx | ho | he2
      · exact emptyLabel_ne_X hi (by rw [← he, h1, hx])
      · exact emptyLabel_ne_O hi (by rw [← he, h1, ho])
      · exact hij (emptyLabel_inj hi hj (by rw [← he, ← he2, h1]))
  · rintro (⟨a, b, c⟩ | ⟨a, b, c⟩) <;> simp [a, b, c]

/-- The loops of `checkWin` visit exactly the eight lines. -/
theorem checkWin_eq_any (board : Board) :
    checkWin board = winLines.any (fun l =>
      cell board l.1 == cell board l.2.1 && cell board l.2.1 == cell board l.2.2) := by
  simp [checkWin, winLines, Bool.or_assoc]

theorem checkWin_iff_hasWinningLine {board : Board} (h : Reachable board) :
    checkWin board = true ↔ hasWinningLine board := by
  rw [checkWin_eq_any, List.any_eq_true]
  unfold hasWinningLine lineHeldBy
  constructor
  · rintro ⟨l, hl, heq⟩
    obtain ⟨b1, b2, _, d1, _, _⟩ := winLines_bounds l hl
    refine ⟨l, hl, (equal_cells_iff h b1 b2 d1).1 ?_⟩
    simpa using heq
  · rintro ⟨l, hl, hu⟩
    obtain ⟨b1, b2, _, d1, _, _⟩ := winLines_bounds l hl
    refine ⟨l, hl, ?_⟩
    simpa using (equal_cells_iff h b1 b2 d1).2 hu

/-! ## The test move and its undo -/

theorem set_cell_self (board : Board) (i : Nat) : board.set i (cell board i) = board := by
  unfold cell
  induction board generalizing i with
  | nil => rfl
  | cons a rest ih =>
    cases i with
    | zero => rfl
    | succ n => simpa using ih n

theorem checkPotentialWin_snd (board : Board) (i : Nat) (player : Char) :
    (checkPotentialWin board i player).2 = board := by
  simp only [checkPotentialWin]
  split
  · rfl
  · simp [List.set_set, set_cell_self]

theorem checkPotentialWin_fst (board : Board) (i : Nat) (player : Char) :
    (checkPotentialWin board i player).1 = winTest board player i := by
  unfold checkPotentialWin winTest isFree
  by_cases hx : cell board i = 'X'
  · simp [hx]
  · by_cases ho : cell board i = 'O'
    · simp [ho]
    · simp [hx, ho]

theorem scanPotentialWin_eq (player : Char) (indices : List Nat) (board : Board) :
    scanPotentialWin player indices board = (indices.find? (winTest board player), board) := by
  induction indices with
  | nil => rfl
  | cons i rest ih =>
    unfold scanPotentialWin
    simp only [checkPotentialWin_fst, checkPotentialWin_snd, List.find?_cons]
    cases hw : winTest board player i
    · simpa using ih
    · simp

theorem getAIMoveIndex_snd (board : Board) : (getAIMoveIndex board).2 = board := by
  unfold getAIMoveIndex
  simp only [scanPotentialWin_eq]
  cases (List.range 9).find? (winTest board 'O') with
  | some i => rfl
  | none =>
    dsimp only
    cases (List.range 9).find? (winTest board 'X') with
    | some i => rfl
    | none =>
      dsimp only
      split
      · rfl
      · cases [0, 2, 6, 8].find? (fun index => isFree board index) with
        | some i => rfl
        | none =>
          dsimp only
          cases [1, 3, 5, 7].find? (fun index => isFree board index) with
          | some i => rfl
          | none => rfl

/-- The index chosen by `getAIMoveIndex`, tier by tier. -/
theorem getAIMoveIndex_fst (board : Board) :
    (getAIMoveIndex board).1 =
      match (List.range 9).find? (winTest board 'O') with
      | some i => (i : Int)
      | none =>
        match (List.range 9).find? (winTest board 'X') with
        | some i => (i : Int)
        | none =>
          if isFree board 4 then 4
          else
            match [0, 2, 6, 8].find? (fun index => isFree board index) with
            | some i => (i : Int)
            | none =>
              match [1, 3, 5, 7].find? (fun index => isFree board index) with
              | some i => (i : Int)
              | none => -1 := by
  unfold getAIMoveIndex
  simp only [scanPotentialWin_eq]
  cases (List.range 9).find? (winTest board 'O') with
  | some i => rfl
  | none =>
    dsimp only
    cases (List.range 9).find? (winTest board 'X') with
    | some i => rfl
    | none =>
      dsimp only
      split
      · rfl
      · cases [0, 2, 6, 8].find? (fun index => isFree board index) with
        | some i => rfl
        | none =>
          dsimp only
          cases [1, 3, 5, 7].find? (fun index => isFree board index) with
          | some i => rfl
          | none => rfl

/-! ## First match of a scan over increasing indices -/

theorem find?_least {p : Nat → Bool} {l : List Nat} (hs : l.Pairwise (· < ·)) {a : Nat}
    (h : l.find? p = some a) : a ∈ l ∧ p a = true ∧ ∀ x ∈ l, x < a → p x = false := by
  induction l with
  | nil => simp at h
  | cons b rest ih =>
    rw [List.pairwise_cons] at hs
    rw [List.find?_cons] at h
    cases hb : p b with
    | true =>
      rw [hb] at h
      injection h with h
      subst h
      refine ⟨List.mem_cons_self _ _, hb, fun x hx hlt => ?_⟩
      rcases List.mem_cons.1 hx with rfl | hx
      · exact absurd hlt (Nat.lt_irrefl _)
      · exact absurd (hs.1 x hx) (Nat.lt_asymm hlt)
    | false =>
      rw [hb] at h
      obtain ⟨hm, hp, hl⟩ := ih hs.2 h
      refine ⟨List.mem_cons_of_mem _ hm, hp, fun x hx hlt => ?_⟩
      rcases List.mem_cons.1 hx with rfl | hx
      · exact hb
      · exact hl x hx hlt

theorem find?_of_least {p : Nat → Bool} {l : List Nat} (hs : l.Pairwise (· < ·)) {a : Nat}
    (ha : a ∈ l) (hp : p a = true) (hl : ∀ x ∈ l, x < a → p x = false) :
    l.find? p = some a := by
  cases h : l.find? p with
  | none =>
    rw [List.find?_eq_none] at h
    exact absurd hp (h a ha)
  | some c =>
    obtain ⟨hc, hpc, hlc⟩ := find?_least hs h
    rcases Nat.lt_trichotomy c a with hlt | heq | hgt
    · rw [hl c hc hlt] at hpc
      exact absurd hpc (by simp)
    · rw [heq]
    · rw [hlc a ha hgt] at hp
      exact absurd hp (by simp)

theorem range9_sorted : (List.range 9).Pairwise (· < ·) := by decide

theorem mem_range9 {i : Nat} : i ∈ List.range 9 ↔ i < 9 := List.mem_range

/-! ## What the test move decides -/

theorem isFree_iff_isEmptyCell {board : Board} (h : Reachable board) {i : Nat} (hi : i < 9) :
    isFree board i = true ↔ isEmptyCell board i := by
  unfold isFree isEmptyCell
  rcases h.2 i hi with hx | ho | he
  · simp [hx, (emptyLabel_ne_X hi).symm]
  · simp [ho, (emptyLabel_ne_O hi).symm]
  · simp [he, emptyLabel_ne_X hi, emptyLabel_ne_O hi]

theorem taken_of_not_free {board : Board} {i : Nat} (h : isFree board i = false) :
    cell board i = 'X' ∨ cell board i = 'O' := by
  unfold isFree at h
  by_cases hx : cell board i = 'X'
  · exact Or.inl hx
  · by_cases ho : cell board i = 'O'
    · exact Or.inr ho
    · simp [hx, ho] at h

theorem cell_set (board : Board) (i j : Nat) (c : Char) (hi : i < board.length) :
    cell (board.set i c) j = if j = i then c else cell board j := by
  by_cases hji : j = i
  · subst hji
    simp [cell_set_self board j c hi]
  · simp [hji, cell_set_of_ne board c hji]

/-- A line held by `side` after a different mark was placed at `i` was held before. -/
theorem lineHeldBy_of_set_ne {board : Board} {i : Nat} {c side : Char}
    {l : Nat × Nat × Nat} (hi : i < board.length) (hne : c ≠ side)
    (h : lineHeldBy (board.set i c) side l) : lineHeldBy board side l := by
  unfold lineHeldBy at h ⊢
  simp only [cell_set board i _ c hi] at h
  obtain ⟨h1, h2, h3⟩ := h
  refine ⟨?_, ?_, ?_⟩
  · by_cases e : l.1 = i
    · rw [if_pos e] at h1; exact absurd h1 hne
    · rw [if_neg e] at h1; exact h1
  · by_cases e : l.2.1 = i
    · rw [if_pos e] at h2; exact absurd h2 hne
    · rw [if_neg e] at h2; exact h2
  · by_cases e : l.2.2 = i
    · rw [if_pos e] at h3; exact absurd h3 hne
    · rw [if_neg e] at h3; exact h3

/-- A line held by `side` stays held when `side` places one more mark. -/
theorem lineHeldBy_set_same {board : Board} {i : Nat} {side : Char}
    {l : Nat × Nat × Nat} (hi : i < board.length)
    (h : lineHeldBy board side l) : lineHeldBy (board.set i side) side l := by
  unfold lineHeldBy at h ⊢
  simp only [cell_set board i _ side hi]
  obtain ⟨h1, h2, h3⟩ := h
  refine ⟨?_, ?_, ?_⟩ <;> split <;> first | rfl | assumption

theorem winTest_iff {board : Board} (h : Reachable board) {side : Char}
    (hs : side = 'X' ∨ side = 'O') {i : Nat} (hi : i < 9) :
    winTest board side i = true ↔
      isEmptyCell board i ∧ hasWinningLine (board.set i side) := by
  unfold winTest
  rw [Bool.and_eq_true, isFree_iff_isEmptyCell h hi,
    checkWin_iff_hasWinningLine (reachable_set h hi hs)]

/-- A successful test move for either side means some side has an immediate win there. -/
theorem immediateWin_of_winTest {board : Board} (h : Reachable board) {side : Char}
    (hs : side = 'X' ∨ side = 'O') {i : Nat} (hi : i < 9)
    (hw : winTest board side i = true) :
    immediateWin board side i ∨
      ∃ other, (other = 'X' ∨ other = 'O') ∧ threeInLine board other ∧
        immediateWin board other i := by
  obtain ⟨he, l, hl, hu⟩ := (winTest_iff h hs hi).1 hw
  have hlen : i < board.length := by rw [h.1]; exact hi
  by_cases hX : side = 'X'
  · subst hX
    rcases hu with hu | hu
    · exact Or.inl ⟨he, l, hl, hu⟩
    · have hb := lineHeldBy_of_set_ne hlen (by decide) hu
      exact Or.inr ⟨'O', Or.inr rfl, ⟨l, hl, hb⟩, he, l, hl, lineHeldBy_set_same hlen hb⟩
  · have hO : side = 'O' := by rcases hs with hs | hs; exact absurd hs hX; exact hs
    subst hO
    rcases hu with hu | hu
    · have hb := lineHeldBy_of_set_ne hlen (by decide) hu
      exact Or.inr ⟨'X', Or.inl rfl, ⟨l, hl, hb⟩, he, l, hl, lineHeldBy_set_same hlen hb⟩
    · exact Or.inl ⟨he, l, hl, hu⟩

theorem hasWinningLine_of_threeInLine {board : Board} {side : Char}
    (hs : side = 'X' ∨ side = 'O') (h : threeInLine board side) : hasWinningLine board := by
  obtain ⟨l, hl, hu⟩ := h
  rcases hs with rfl | rfl
  · exact ⟨l, hl, Or.inl hu⟩
  · exact ⟨l, hl, Or.inr hu⟩

theorem winTest_of_immediateWin {board : Board} (h : Reachable board) {side : Char}
    (hs : side = 'X' ∨ side = 'O') {i : Nat} (hi : i < 9)
    (hw : immediateWin board side i) : winTest board side i = true :=
  (winTest_iff h hs hi).2 ⟨hw.1, hasWinningLine_of_threeInLine hs hw.2⟩

/-- With no complete line on the board, the test move succeeds exactly on the immediate
wins of the tested side. -/
theorem winTest_iff_immediateWin {board : Board} (h : Reachable board)
    (hn : ¬ hasWinningLine board) {side : Char} (hs : side = 'X' ∨ side = 'O')
    {i : Nat} (hi : i < 9) : winTest board side i = true ↔ immediateWin board side i := by
  constructor
  · intro hw
    rcases immediateWin_of_winTest h hs hi hw with hw | ⟨other, ho, ht, _⟩
    · exact hw
    · exact absurd (hasWinningLine_of_threeInLine ho ht) hn
  · exact winTest_of_immediateWin h hs hi

/-! ## Claims -/

/-- C1: on every reachable board `checkWin` returns true exactly when one of the eight
index triples holds three X or three O. -/
theorem checkWin_iff_uniform_line (board : Board) (h : Reachable board) :
    checkWin board = true ↔
      ∃ l ∈ winLines,
        (cell board l.1 = 'X' ∧ cell board l.2.1 = 'X' ∧ cell board l.2.2 = 'X') ∨
        (cell board l.1 = 'O' ∧ cell board l.2.1 = 'O' ∧ cell board l.2.2 = 'O') :=
  checkWin_iff_hasWinningLine h

theorem checkWin_iff_uniform_line_witness :
    Reachable ['X', 'O', 'X', 'O', 'X', 'O', 'X', '8', '9'] ∧
    (checkWin ['X', 'O', 'X', 'O', 'X', 'O', 'X', '8', '9'] = true ↔
      ∃ l ∈ winLines,
        (cell ['X', 'O', 'X', 'O', 'X', 'O', 'X', '8', '9'] l.1 = 'X' ∧
          cell ['X', 'O', 'X', 'O', 'X', 'O', 'X', '8', '9'] l.2.1 = 'X' ∧
          cell ['X', 'O', 'X', 'O', 'X', 'O', 'X', '8', '9'] l.2.2 = 'X') ∨
        (cell ['X', 'O', 'X', 'O', 'X', 'O', 'X', '8', '9'] l.1 = 'O' ∧
          cell ['X', 'O', 'X', 'O', 'X', 'O', 'X', '8', '9'] l.2.1 = 'O' ∧
          cell ['X', 'O', 'X', 'O', 'X', 'O', 'X', '8', '9'] l.2.2 = 'O')) :=
  ⟨by decide, checkWin_iff_uniform_line _ (by decide)⟩

/-- C2: on a reachable board with no complete line where some Empty cell gives O three in
a line, `getAIMoveIndex` returns the lowest such cell. -/
theorem getAIMoveIndex_takes_win (board : Board) (h : Reachable board)
    (hn : ¬ hasWinningLine board) (hw : ∃ i : Nat, i < 9 ∧ immediateWin board 'O' i) :
    ∃ i : Nat, i < 9 ∧ (getAIMoveIndex board).1 = (i : Int) ∧ immediateWin board 'O' i ∧
      ∀ j : Nat, j < i → ¬ immediateWin board 'O' j := by
  obtain ⟨k, hk, hwk⟩ := hw
  cases hf : (List.range 9).find? (winTest board 'O') with
  | none =>
    rw [List.find?_eq_none] at hf
    exact absurd (winTest_of_immediateWin h (Or.inr rfl) hk hwk) (hf k (mem_range9.2 hk))
  | some i =>
    obtain ⟨hm, hp, hl⟩ := find?_least range9_sorted hf
    have hi : i < 9 := mem_range9.1 hm
    refine ⟨i, hi, ?_, (winTest_iff_immediateWin h hn (Or.inr rfl) hi).1 hp, fun j hj hwj => ?_⟩
    · rw [getAIMoveIndex_fst, hf]
    · have hj9 : j < 9 := Nat.lt_trans hj hi
      have := hl j (mem_range9.2 hj9) hj
      rw [winTest_of_immediateWin h (Or.inr rfl) hj9 hwj] at this
      exact absurd this (by simp)

theorem getAIMoveIndex_takes_win_witness :
    Reachable ['X', 'X', '3', 'O', 'O', '6', 'X', '8', '9'] ∧
    ¬ hasWinningLine ['X', 'X', '3', 'O', 'O', '6', 'X', '8', '9'] ∧
    ∃ i : Nat, i < 9 ∧
      (getAIMoveIndex ['X', 'X', '3', 'O', 'O', '6', 'X', '8', '9']).1 = (i : Int) ∧
      immediateWin ['X', 'X', '3', 'O', 'O', '6', 'X', '8', '9'] 'O' i ∧
      ∀ j : Nat, j < i → ¬ immediateWin ['X', 'X', '3', 'O', 'O', '6', 'X', '8', '9'] 'O' j :=
  ⟨by decide, by decide,
    getAIMoveIndex_takes_win _ (by decide) (by decide) ⟨5, by decide, by decide⟩⟩

/-- C3: on a reachable board with no complete line where no Empty cell gives O three in a
line but some Empty cell would give X three in a line, `getAIMoveIndex` returns the lowest
such cell. -/
theorem getAIMoveIndex_blocks (board : Board) (h : Reachable board)
    (hn : ¬ hasWinningLine board) (ho : ∀ i, i < 9 → ¬ immediateWin board 'O' i)
    (hx : ∃ i : Nat, i < 9 ∧ immediateWin board 'X' i) :
    ∃ i : Nat, i < 9 ∧ (getAIMoveIndex board).1 = (i : Int) ∧ immediateWin board 'X' i ∧
      ∀ j : Nat, j < i → ¬ immediateWin board 'X' j := by
  obtain ⟨k, hk, hwk⟩ := hx
  have hO : (List.range 9).find? (winTest board 'O') = none := by
    rw [List.find?_eq_none]
    intro j hj hwj
    exact ho j (mem_range9.1 hj)
      ((winTest_iff_immediateWin h hn (Or.inr rfl) (mem_range9.1 hj)).1 hwj)
  cases hf : (List.range 9).find? (winTest board 'X') with
  | none =>
    rw [List.find?_eq_none] at hf
    exact absurd (winTest_of_immediateWin h (Or.inl rfl) hk hwk) (hf k (mem_range9.2 hk))
  | some i =>
    obtain ⟨hm, hp, hl⟩ := find?_least range9_sorted hf
    have hi : i < 9 := mem_range9.1 hm
    refine ⟨i, hi, ?_, (winTest_iff_immediateWin h hn (Or.inl rfl) hi).1 hp, fun j hj hwj => ?_⟩
    · rw [getAIMoveIndex_fst, hO, hf]
    · have hj9 : j < 9 := Nat.lt_trans hj hi
      have := hl j (mem_range9.2 hj9) hj
      rw [winTest_of_immediateWin h (Or.inl rfl) hj9 hwj] at this
      exact absurd this (by simp)

theorem getAIMoveIndex_blocks_witness :
    Reachable ['X', '2', '3', 'O', 'X', '6', 'O', '8', '9'] ∧
    ¬ hasWinningLine ['X', '2', '3', 'O', 'X', '6', 'O', '8', '9'] ∧
    ∃ i : Nat, i < 9 ∧
      (getAIMoveIndex ['X', '2', '3', 'O', 'X', '6', 'O', '8', '9']).1 = (i : Int) ∧
      immediateWin ['X', '2', '3', 'O', 'X', '6', 'O', '8', '9'] 'X' i ∧
      ∀ j : Nat, j < i → ¬ immediateWin ['X', '2', '3', 'O', 'X', '6', 'O', '8', '9'] 'X' j :=
  ⟨by decide, by decide,
    getAIMoveIndex_blocks _ (by decide) (by decide) (by decide) ⟨8, by decide, by decide⟩⟩

/-- C4: `getAIMoveIndex` and every call of `checkPotentialWin` leave the board exactly as
they found it, for every board, index and player. -/
theorem ai_lookahead_restores_board (board : Board) :
    (getAIMoveIndex board).2 = board ∧
      ∀ (i : Nat) (player : Char), (checkPotentialWin board i player).2 = board :=
  ⟨getAIMoveIndex_snd board, fun i player => checkPotentialWin_snd board i player⟩

/-- The index chosen by `getAIMoveIndex` on a reachable board is that of an Empty cell,
or `-1` on a board with no free cell. -/
theorem getAIMoveIndex_empty_or_full {board : Board} (h : Reachable board) :
    ((getAIMoveIndex board).1 = -1 ∧ ∀ i, i < 9 → cell board i = 'X' ∨ cell board i = 'O') ∨
      ∃ i : Nat, i < 9 ∧ (getAIMoveIndex board).1 = (i : Int) ∧ isEmptyCell board i := by
  rw [getAIMoveIndex_fst]
  cases hO : (List.range 9).find? (winTest board 'O') with
  | some i =>
    obtain ⟨hm, hp, _⟩ := find?_least range9_sorted hO
    have hi : i < 9 := mem_range9.1 hm
    exact Or.inr ⟨i, hi, rfl, ((winTest_iff h (Or.inr rfl) hi).1 hp).1⟩
  | none =>
    cases hX : (List.range 9).find? (winTest board 'X') with
    | some i =>
      obtain ⟨hm, hp, _⟩ := find?_least range9_sorted hX
      have hi : i < 9 := mem_range9.1 hm
      exact Or.inr ⟨i, hi, rfl, ((winTest_iff h (Or.inl rfl) hi).1 hp).1⟩
    | none =>
      dsimp only
      by_cases h4 : isFree board 4 = true
      · rw [if_pos h4]
        exact Or.inr ⟨4, by decide, rfl, (isFree_iff_isEmptyCell h (by decide)).1 h4⟩
      · rw [if_neg h4]
        cases hC : [0, 2, 6, 8].find? (fun index => isFree board index) with
        | some i =>
          have hm := List.mem_of_find?_eq_some hC
          have hp := List.find?_some hC
          have hi : i < 9 := by
            simp only [List.mem_cons, List.mem_singleton, List.not_mem_nil, or_false] at hm
            omega
          exact Or.inr ⟨i, hi, rfl, (isFree_iff_isEmptyCell h hi).1 hp⟩
        | none =>
          cases hE : [1, 3, 5, 7].find? (fun index => isFree board index) with
          | some i =>
            have hm := List.mem_of_find?_eq_some hE
            have hp := List.find?_some hE
            have hi : i < 9 := by
              simp only [List.mem_cons, List.mem_singleton, List.not_mem_nil, or_false] at hm
              omega
            exact Or.inr ⟨i, hi, rfl, (isFree_iff_isEmptyCell h hi).1 hp⟩
          | none =>
            refine Or.inl ⟨rfl, fun i hi => ?_⟩
            rw [List.find?_eq_none] at hC hE
            apply taken_of_not_free
            have h4' : isFree board 4 = false := by simpa using h4
            interval_cases i
            · simpa using hC 0 (by simp)
            · simpa using hE 1 (by simp)
            · simpa using hC 2 (by simp)
            · simpa using hE 3 (by simp)
            · exact h4'
            · simpa using hE 5 (by simp)
            · simpa using hC 6 (by simp)
            · simpa using hE 7 (by simp)
            · simpa using hC 8 (by simp)

/-- C5: on every reachable board `getAIMoveIndex` returns either the index (0..8) of a cell
that is Empty, or `-1`, and `-1` only when every cell holds X or O. -/
theorem getAIMoveIndex_valid (board : Board) (h : Reachable board) :
    ((getAIMoveIndex board).1 = -1 ∧ ∀ i, i < 9 → cell board i = 'X' ∨ cell board i = 'O') ∨
      ∃ i : Nat, i < 9 ∧ (getAIMoveIndex board).1 = (i : Int) ∧ isEmptyCell board i :=
  getAIMoveIndex_empty_or_full h

theorem getAIMoveIndex_valid_witness :
    Reachable ['X', 'O', 'X', 'X', 'O', 'O', 'O', 'X', '9'] ∧
    (((getAIMoveIndex ['X', 'O', 'X', 'X', 'O', 'O', 'O', 'X', '9']).1 = -1 ∧
        ∀ i, i < 9 → cell ['X', 'O', 'X', 'X', 'O', 'O', 'O', 'X', '9'] i = 'X' ∨
          cell ['X', 'O', 'X', 'X', 'O', 'O', 'O', 'X', '9'] i = 'O') ∨
      ∃ i : Nat, i < 9 ∧ (getAIMoveIndex ['X', 'O', 'X', 'X', 'O', 'O', 'O', 'X', '9']).1 = (i : Int) ∧
        isEmptyCell ['X', 'O', 'X', 'X', 'O', 'O', 'O', 'X', '9'] i) :=
  ⟨by decide, getAIMoveIndex_valid _ (by decide)⟩

/-- C6 as stated fails: on the block scenario board `getAIMoveIndex` does not return 2. -/
theorem blockScenario_not_blocked : (getAIMoveIndex blockScenario).1 ≠ 2 := by decide

/-- C6 amended: on the board X,X,_,O,O,_,_,_,_ `getAIMoveIndex` returns 5, the Empty cell
that completes row 3,4,5 for O; cell 2 is the cell X would win at. -/
theorem blockScenario_takes_win :
    (getAIMoveIndex blockScenario).1 = 5 ∧ immediateWin blockScenario 'O' 5 ∧
      immediateWin blockScenario 'X' 2 := by decide

/-- C7: after a move the round loop records a win for the mover when `checkWin` holds,
otherwise a draw when `checkDraw` holds, otherwise it hands the turn over; a full board
with a winning line is recorded as a win and the draw counter stays as it was.  A counter
is raised by the `++` of its `int` field. -/
theorem checkGameState_precedence (g : TicTacToe) :
    (checkWin g.board = true →
      (checkGameState g).gameStatus = false ∧
      (checkGameState g).draws = g.draws ∧
      (g.currentPlayer = 'X' →
        (checkGameState g).playerXWins = incrInt g.playerXWins ∧
        (checkGameState g).playerOWins = g.playerOWins) ∧
      (g.currentPlayer = 'O' →
        (checkGameState g).playerOWins = incrInt g.playerOWins ∧
        (checkGameState g).playerXWins = g.playerXWins)) ∧
    (checkWin g.board = false → checkDraw g.board = true →
      (checkGameState g).gameStatus = false ∧
      (checkGameState g).draws = incrInt g.draws ∧
      (checkGameState g).playerXWins = g.playerXWins ∧
      (checkGameState g).playerOWins = g.playerOWins) ∧
    (checkWin g.board = false → checkDraw g.board = false →
      (checkGameState g).gameStatus = g.gameStatus ∧
      (checkGameState g).currentPlayer = (if g.currentPlayer = 'X' then 'O' else 'X') ∧
      (checkGameState g).draws = g.draws ∧
      (checkGameState g).playerXWins = g.playerXWins ∧
      (checkGameState g).playerOWins = g.playerOWins) ∧
    (Reachable g.board → (∀ i, i < 9 → cell g.board i = 'X' ∨ cell g.board i = 'O') →
      hasWinningLine g.board →
      (checkGameState g).gameStatus = false ∧
      (checkGameState g).draws = g.draws ∧
      (((checkGameState g).playerXWins = incrInt g.playerXWins ∧
          (checkGameState g).playerOWins = g.playerOWins) ∨
        ((checkGameState g).playerOWins = incrInt g.playerOWins ∧
          (checkGameState g).playerXWins = g.playerXWins))) := by
  refine ⟨fun hw => ?_, fun hw hd => ?_, fun hw hd => ?_, fun hr _ hl => ?_⟩
  · unfold checkGameState
    rw [if_pos hw]
    refine ⟨?_, ?_, fun hx => ?_, fun ho => ?_⟩
    · split <;> rfl
    · split <;> rfl
    · simp [hx]
    · simp [ho]
  · unfold checkGameState
    simp [hw, hd]
  · unfold checkGameState switchPlayer
    simp [hw, hd]
  · have hw := (checkWin_iff_hasWinningLine hr).2 hl
    unfold checkGameState
    rw [if_pos hw]
    split
    · exact ⟨rfl, rfl, Or.inl ⟨rfl, rfl⟩⟩
    · exact ⟨rfl, rfl, Or.inr ⟨rfl, rfl⟩⟩

theorem checkGameState_precedence_witness :
    checkDraw fullBoardWin.board = true ∧
    (checkGameState fullBoardWin).gameStatus = false ∧
    (checkGameState fullBoardWin).draws = fullBoardWin.draws ∧
    (((checkGameState fullBoardWin).playerXWins = incrInt fullBoardWin.playerXWins ∧
        (checkGameState fullBoardWin).playerOWins = fullBoardWin.playerOWins) ∨
      ((checkGameState fullBoardWin).playerOWins = incrInt fullBoardWin.playerOWins ∧
        (checkGameState fullBoardWin).playerXWins = fullBoardWin.playerXWins)) :=
  ⟨by decide,
    (checkGameState_precedence fullBoardWin).2.2.2 (by decide) (by decide) (by decide)⟩

theorem cell_eq_getElem (board : Board) {i : Nat} (hi : i < board.length) :
    cell board i = board[i] := by
  simp [cell, List.getD_eq_getElem?_getD, hi]

theorem checkDraw_iff_taken {board : Board} (h : Reachable board) :
    checkDraw board = true ↔ ∀ i, i < 9 → cell board i = 'X' ∨ cell board i = 'O' := by
  unfold checkDraw
  rw [Bool.not_eq_true', List.any_eq_false]
  constructor
  · intro hall i hi
    have hlen : i < board.length := by rw [h.1]; exact hi
    have hm : cell board i ∈ board := by
      rw [cell_eq_getElem board hlen]; exact List.getElem_mem hlen
    rcases h.2 i hi with hx | ho | he
    · exact Or.inl hx
    · exact Or.inr ho
    · exfalso
      apply hall _ hm
      rw [he]
      simpa using emptyLabel_digit hi
  · intro hall c hc
    obtain ⟨i, hlen, rfl⟩ := List.mem_iff_getElem.1 hc
    have hi : i < 9 := by rw [← h.1]; exact hlen
    rw [← cell_eq_getElem board hlen]
    rcases hall i hi with hx | ho
    · rw [hx]; decide
    · rw [ho]; decide

/-- C8: on every board of nine cells, each X, O or Empty, `checkDraw` returns true exactly
when every cell holds X or O, that is, when no cell is Empty. -/
theorem checkDraw_iff_full (board : Board) (h : Reachable board) :
    (checkDraw board = true ↔ ∀ i, i < 9 → cell board i = 'X' ∨ cell board i = 'O') ∧
    (checkDraw board = true ↔ ∀ i, i < 9 → ¬ isEmptyCell board i) := by
  refine ⟨checkDraw_iff_taken h, (checkDraw_iff_taken h).trans ?_⟩
  constructor
  · intro hall i hi he
    unfold isEmptyCell at he
    rcases hall i hi with hx | ho
    · exact emptyLabel_ne_X hi (he ▸ hx)
    · exact emptyLabel_ne_O hi (he ▸ ho)
  · intro hall i hi
    rcases h.2 i hi with hx | ho | he
    · exact Or.inl hx
    · exact Or.inr ho
    · exact absurd he (hall i hi)

theorem checkDraw_iff_full_witness :
    Reachable ['X', 'O', 'X', 'O', 'X', 'O', 'O', 'X', 'O'] ∧
    (checkDraw ['X', 'O', 'X', 'O', 'X', 'O', 'O', 'X', 'O'] = true ↔
      ∀ i, i < 9 → cell ['X', 'O', 'X', 'O', 'X', 'O', 'O', 'X', 'O'] i = 'X' ∨
        cell ['X', 'O', 'X', 'O', 'X', 'O', 'O', 'X', 'O'] i = 'O') ∧
    (checkDraw ['X', 'O', 'X', 'O', 'X', 'O', 'O', 'X', 'O'] = true ↔
      ∀ i, i < 9 → ¬ isEmptyCell ['X', 'O', 'X', 'O', 'X', 'O', 'O', 'X', 'O'] i) :=
  ⟨by decide, checkDraw_iff_full _ (by decide)⟩

theorem no_winTest_of_no_immediateWin {board : Board} (h : Reachable board)
    (hno : ∀ i, i < 9 → ¬ immediateWin board 'O' i ∧ ¬ immediateWin board 'X' i)
    {side : Char} (hs : side = 'X' ∨ side = 'O') :
    (List.range 9).find? (winTest board side) = none := by
  rw [List.find?_eq_none]
  intro j hj hwj
  have hj9 : j < 9 := mem_range9.1 hj
  have key : ∀ c, (c = 'X' ∨ c = 'O') → ¬ immediateWin board c j := by
    rintro c (rfl | rfl)
    · exact (hno j hj9).2
    · exact (hno j hj9).1
  rcases immediateWin_of_winTest h hs hj9 hwj with hw | ⟨other, ho, _, hw⟩
  · exact key side hs hw
  · exact key other ho hw

/-- C9: on a reachable board where no Empty cell gives either side three in a line,
`getAIMoveIndex` returns 4 when the centre is Empty; otherwise the lowest Empty corner of
0,2,6,8; otherwise, when no corner is Empty, the lowest Empty edge of 1,3,5,7. -/
theorem getAIMoveIndex_heuristic (board : Board) (h : Reachable board)
    (hno : ∀ i, i < 9 → ¬ immediateWin board 'O' i ∧ ¬ immediateWin board 'X' i) :
    (isEmptyCell board 4 → (getAIMoveIndex board).1 = 4) ∧
    (¬ isEmptyCell board 4 →
      ∀ c ∈ [0, 2, 6, 8], isEmptyCell board c →
        (∀ c' ∈ [0, 2, 6, 8], c' < c → ¬ isEmptyCell board c') →
        (getAIMoveIndex board).1 = (c : Int)) ∧
    (¬ isEmptyCell board 4 → (∀ c ∈ [0, 2, 6, 8], ¬ isEmptyCell board c) →
      ∀ e ∈ [1, 3, 5, 7], isEmptyCell board e →
        (∀ e' ∈ [1, 3, 5, 7], e' < e → ¬ isEmptyCell board e') →
        (getAIMoveIndex board).1 = (e : Int)) := by
  have hO := no_winTest_of_no_immediateWin h hno (Or.inr rfl)
  have hX := no_winTest_of_no_immediateWin h hno (Or.inl rfl)
  have hC9 : ∀ c ∈ [0, 2, 6, 8], c < 9 := by decide
  have hE9 : ∀ e ∈ [1, 3, 5, 7], e < 9 := by decide
  have free_false : ∀ i, i < 9 → ¬ isEmptyCell board i → isFree board i = false := by
    intro i hi hne
    cases hf : isFree board i with
    | false => rfl
    | true => exact absurd ((isFree_iff_isEmptyCell h hi).1 hf) hne
  rw [getAIMoveIndex_fst, hO, hX]
  dsimp only
  refine ⟨fun h4 => ?_, fun h4 c hc hec hlow => ?_, fun h4 hcor e he hee hlow => ?_⟩
  · rw [if_pos ((isFree_iff_isEmptyCell h (by decide)).2 h4)]
  · have h4' : ¬ (isFree board 4 = true) := by
      rw [free_false 4 (by decide) h4]; simp
    rw [if_neg h4']
    have hf : [0, 2, 6, 8].find? (fun index => isFree board index) = some c :=
      find?_of_least (by decide) hc ((isFree_iff_isEmptyCell h (hC9 c hc)).2 hec)
        (fun x hx hlt => free_false x (hC9 x hx) (hlow x hx hlt))
    rw [hf]
  · have h4' : ¬ (isFree board 4 = true) := by
      rw [free_false 4 (by decide) h4]; simp
    rw [if_neg h4']
    have hfc : [0, 2, 6, 8].find? (fun index => isFree board index) = none := by
      rw [List.find?_eq_none]
      intro x hx hfx
      exact hcor x hx ((isFree_iff_isEmptyCell h (hC9 x hx)).1 hfx)
    have hfe : [1, 3, 5, 7].find? (fun index => isFree board index) = some e :=
      find?_of_least (by decide) he ((isFree_iff_isEmptyCell h (hE9 e he)).2 hee)
        (fun x hx hlt => free_false x (hE9 x hx) (hlow x hx hlt))
    rw [hfc]
    dsimp only
    rw [hfe]

theorem getAIMoveIndex_heuristic_witness :
    Reachable ['X', '2', '3', '4', 'O', '6', '7', '8', '9'] ∧
    (∀ i, i < 9 → ¬ immediateWin ['X', '2', '3', '4', 'O', '6', '7', '8', '9'] 'O' i ∧
      ¬ immediateWin ['X', '2', '3', '4', 'O', '6', '7', '8', '9'] 'X' i) ∧
    (getAIMoveIndex ['X', '2', '3', '4', 'O', '6', '7', '8', '9']).1 = 2 :=
  ⟨by decide, by decide,
    (getAIMoveIndex_heuristic ['X', '2', '3', '4', 'O', '6', '7', '8', '9']
      (by decide) (by decide)).2.1 (by decide) 2 (by decide) (by decide) (by decide)⟩

theorem initializeCells_eq (board : Board) (h : board.length = 9) :
    initializeCells board = ['1', '2', '3', '4', '5', '6', '7', '8', '9'] := by
  match board, h with
  | [_, _, _, _, _, _, _, _, _], _ => rfl

/-- C10: on the board produced by `initializeBoard` (all nine cells Empty)
`getAIMoveIndex` returns 4. -/
theorem getAIMoveIndex_initial (g : TicTacToe) (h : g.board.length = 9) :
    (∀ i, i < 9 → isEmptyCell (initializeBoard g).board i) ∧
      (getAIMoveIndex (initializeBoard g).board).1 = 4 := by
  have hb : (initializeBoard g).board = ['1', '2', '3', '4', '5', '6', '7', '8', '9'] :=
    initializeCells_eq g.board h
  rw [hb]
  decide

theorem getAIMoveIndex_initial_witness :
    usedBoard.board.length = 9 ∧
    (∀ i, i < 9 → isEmptyCell (initializeBoard usedBoard).board i) ∧
      (getAIMoveIndex (initializeBoard usedBoard).board).1 = 4 :=
  ⟨by decide, getAIMoveIndex_initial usedBoard (by decide)⟩

/-! ## Moves -/

theorem lineHeldBy_of_set_off {board : Board} {i : Nat} {c side : Char}
    {l : Nat × Nat × Nat} (h1 : l.1 ≠ i) (h2 : l.2.1 ≠ i) (h3 : l.2.2 ≠ i)
    (h : lineHeldBy (board.set i c) side l) : lineHeldBy board side l := by
  unfold lineHeldBy at h ⊢
  rwa [cell_set_of_ne board c h1, cell_set_of_ne board c h2, cell_set_of_ne board c h3] at h

/-- After a mark of `side` is placed on an Empty cell of a board with no complete line,
every complete line is a line of `side` through that cell. -/
theorem line_after_move {board : Board} (h : Reachable board) (hn : ¬ hasWinningLine board)
    {i : Nat} (hi : i < 9) {side : Char} (hs : side = 'X' ∨ side = 'O')
    {l : Nat × Nat × Nat} (hl : l ∈ winLines)
    (hu : lineHeldBy (board.set i side) 'X' l ∨ lineHeldBy (board.set i side) 'O' l) :
    lineHeldBy (board.set i side) side l ∧ (l.1 = i ∨ l.2.1 = i ∨ l.2.2 = i) := by
  have hlen : i < board.length := by rw [h.1]; exact hi
  have hside : lineHeldBy (board.set i side) side l := by
    rcases hs with rfl | rfl
    · rcases hu with hu | hu
      · exact hu
      · exact absurd ⟨l, hl, Or.inr (lineHeldBy_of_set_ne hlen (by decide) hu)⟩ hn
    · rcases hu with hu | hu
      · exact absurd ⟨l, hl, Or.inl (lineHeldBy_of_set_ne hlen (by decide) hu)⟩ hn
      · exact hu
  refine ⟨hside, ?_⟩
  by_contra hoff
  simp only [not_or] at hoff
  have hb := lineHeldBy_of_set_off hoff.1 hoff.2.1 hoff.2.2 hside
  exact hn (hasWinningLine_of_threeInLine hs ⟨l, hl, hb⟩)

/-- C11: when a mark of side `s` placed on an Empty cell `i` of a reachable board with no
complete line makes `checkWin` true, the board shows a line of three `s`, every complete
line consists of marks of `s` and runs through `i`, and the state check credits the win
to `s` as the current player. -/
theorem win_belongs_to_mover (board : Board) (h : Reachable board)
    (hn : ¬ hasWinningLine board) (i : Nat) (hi : i < 9) (he : isEmptyCell board i)
    (s : Char) (hs : s = 'X' ∨ s = 'O') (hw : checkWin (board.set i s) = true) :
    threeInLine (board.set i s) s ∧
    (∀ l ∈ winLines,
      (lineHeldBy (board.set i s) 'X' l ∨ lineHeldBy (board.set i s) 'O' l) →
        lineHeldBy (board.set i s) s l ∧ (l.1 = i ∨ l.2.1 = i ∨ l.2.2 = i)) ∧
    (∀ g : TicTacToe, g.board = board.set i s → g.currentPlayer = s →
      (checkGameState g).gameStatus = false ∧
      (s = 'X' → (checkGameState g).playerXWins = incrInt g.playerXWins ∧
        (checkGameState g).playerOWins = g.playerOWins) ∧
      (s = 'O' → (checkGameState g).playerOWins = incrInt g.playerOWins ∧
        (checkGameState g).playerXWins = g.playerXWins)) := by
  have hwt : winTest board s i = true := by
    unfold winTest
    rw [Bool.and_eq_true]
    exact ⟨(isFree_iff_isEmptyCell h hi).2 he, hw⟩
  refine ⟨((winTest_iff_immediateWin h hn hs hi).1 hwt).2,
    fun l hl hu => line_after_move h hn hi hs hl hu, fun g hb hp => ?_⟩
  have hwg : checkWin g.board = true := by rw [hb]; exact hw
  unfold checkGameState
  rw [if_pos hwg]
  refine ⟨?_, fun hx => ?_, fun ho => ?_⟩
  · split <;> rfl
  · simp [hp, hx]
  · simp [hp, ho]

theorem win_belongs_to_mover_witness :
    threeInLine (['X', 'X', '3', 'O', 'O', '6', '7', '8', '9'].set 2 'X') 'X' ∧
    (∀ l ∈ winLines,
      (lineHeldBy (['X', 'X', '3', 'O', 'O', '6', '7', '8', '9'].set 2 'X') 'X' l ∨
        lineHeldBy (['X', 'X', '3', 'O', 'O', '6', '7', '8', '9'].set 2 'X') 'O' l) →
        lineHeldBy (['X', 'X', '3', 'O', 'O', '6', '7', '8', '9'].set 2 'X') 'X' l ∧
          (l.1 = 2 ∨ l.2.1 = 2 ∨ l.2.2 = 2)) :=
  ⟨(win_belongs_to_mover ['X', 'X', '3', 'O', 'O', '6', '7', '8', '9'] (by decide)
      (by decide) 2 (by decide) (by decide) 'X' (Or.inl rfl) (by decide)).1,
    (win_belongs_to_mover ['X', 'X', '3', 'O', 'O', '6', '7', '8', '9'] (by decide)
      (by decide) 2 (by decide) (by decide) 'X' (Or.inl rfl) (by decide)).2.1⟩

theorem isFree_of_isEmptyCell {board : Board} {i : Nat} (hi : i < 9)
    (he : isEmptyCell board i) : isFree board i = true := by
  unfold isFree
  unfold isEmptyCell at he
  rw [he]
  simp [emptyLabel_ne_X hi, emptyLabel_ne_O hi]

/-- An accepted attempt names a number 1..9 whose cell is free and writes the mark of
the current player there. -/
theorem playerMoveAttempt_accepted {g : TicTacToe} {entry : Option Int}
    (h : (playerMoveAttempt g entry).2 = true) :
    ∃ i : Nat, i < 9 ∧ entry = some ((i : Int) + 1) ∧ isFree g.board i = true ∧
      (playerMoveAttempt g entry).1 = { g with board := g.board.set i g.currentPlayer } := by
  cases entry with
  | none => simp [playerMoveAttempt] at h
  | some choice =>
    simp only [playerMoveAttempt] at h ⊢
    by_cases hr : (decide (choice ≥ 1) && decide (choice ≤ 9)) = true
    · rw [if_pos hr] at h ⊢
      have hr' : 1 ≤ choice ∧ choice ≤ 9 := by simpa using hr
      by_cases hf : (cell g.board (choice - 1).toNat != 'X' &&
          cell g.board (choice - 1).toNat != 'O') = true
      · rw [if_pos hf]
        refine ⟨(choice - 1).toNat, by omega, ?_, hf, rfl⟩
        congr 1
        omega
      · rw [if_neg hf] at h
        simp at h
    · rw [if_neg hr] at h
      simp at h

/-- A rejected attempt leaves the whole state as it was. -/
theorem playerMoveAttempt_rejected {g : TicTacToe} {entry : Option Int}
    (h : (playerMoveAttempt g entry).2 = false) : (playerMoveAttempt g entry).1 = g := by
  cases entry with
  | none => rfl
  | some choice =>
    simp only [playerMoveAttempt] at h ⊢
    split
    · split
      · rename_i h1 h2
        rw [if_pos h1, if_pos h2] at h
        simp at h
      · rfl
    · rfl

theorem lt_length_of_isEmptyCell {board : Board} {i : Nat} (hi : i < 9)
    (he : isEmptyCell board i) : i < board.length := by
  by_contra hlen
  unfold isEmptyCell cell at he
  rw [List.getD_eq_default _ _ (Nat.le_of_not_lt hlen)] at he
  revert he
  interval_cases i <;> decide

/-- C12: in `getPlayerMove` an entry that is not a number, a number outside 1..9, or a
number naming a cell that holds X or O leaves the whole state (board and side to move)
unchanged and the loop asks again; a number naming an Empty cell sets exactly the cell
number minus 1 to the current player and ends the loop. -/
theorem human_move_validation (g : TicTacToe) :
    playerMoveAttempt g none = (g, false) ∧
    (∀ choice : Int, choice < 1 ∨ 9 < choice → playerMoveAttempt g (some choice) = (g, false)) ∧
    (∀ choice : Int, 1 ≤ choice → choice ≤ 9 →
      cell g.board (choice - 1).toNat = 'X' ∨ cell g.board (choice - 1).toNat = 'O' →
      playerMoveAttempt g (some choice) = (g, false)) ∧
    (∀ choice : Int, 1 ≤ choice → choice ≤ 9 → isEmptyCell g.board (choice - 1).toNat →
      playerMoveAttempt g (some choice) =
        ({ g with board := g.board.set (choice - 1).toNat g.currentPlayer }, true) ∧
      cell (playerMoveAttempt g (some choice)).1.board (choice - 1).toNat = g.currentPlayer ∧
      ∀ j, j ≠ (choice - 1).toNat →
        cell (playerMoveAttempt g (some choice)).1.board j = cell g.board j) ∧
    (∀ entry rest, (playerMoveAttempt g entry).2 = false →
      getPlayerMove g (entry :: rest) = getPlayerMove g rest) ∧
    (∀ entry rest, (playerMoveAttempt g entry).2 = true →
      getPlayerMove g (entry :: rest) = some ((playerMoveAttempt g entry).1, rest)) := by
  refine ⟨rfl, fun choice hc => ?_, fun choice h1 h9 ht => ?_, fun choice h1 h9 he => ?_,
    fun entry rest hr => ?_, fun entry rest ha => ?_⟩
  · have : (decide (choice ≥ 1) && decide (choice ≤ 9)) = false := by
      rcases hc with hc | hc
      · simp [hc]
      · simp only [Bool.and_eq_false_iff, decide_eq_false_iff_not]
        right; omega
    simp [playerMoveAttempt, this]
  · have hr : (decide (choice ≥ 1) && decide (choice ≤ 9)) = true := by simp [h1, h9]
    have hcond : (cell g.board (choice - 1).toNat != 'X' &&
        cell g.board (choice - 1).toNat != 'O') = false := by
      rcases ht with ht | ht <;> rw [ht] <;> decide
    simp only [playerMoveAttempt, hr, hcond, if_true, Bool.false_eq_true, if_false]
  · have hi : (choice - 1).toNat < 9 := by omega
    have hr : (decide (choice ≥ 1) && decide (choice ≤ 9)) = true := by simp [h1, h9]
    have hf := isFree_of_isEmptyCell hi he
    unfold isFree at hf
    have heq : playerMoveAttempt g (some choice) =
        ({ g with board := g.board.set (choice - 1).toNat g.currentPlayer }, true) := by
      simp only [playerMoveAttempt, hr, if_true, hf]
    rw [heq]
    exact ⟨rfl, cell_set_self _ _ _ (lt_length_of_isEmptyCell hi he),
      fun j hj => cell_set_of_ne _ _ hj⟩
  · rw [getPlayerMove]
    simp only [hr, playerMoveAttempt_rejected hr]
    simp
  · rw [getPlayerMove]
    simp only [ha]
    simp

theorem human_move_validation_witness :
    playerMoveAttempt midRound (some 5) = (midRound, false) ∧
    playerMoveAttempt midRound (some 2) =
      ({ midRound with board := midRound.board.set 1 midRound.currentPlayer }, true) :=
  ⟨(human_move_validation midRound).2.2.1 5 (by decide) (by decide) (by decide),
    ((human_move_validation midRound).2.2.2.1 2 (by decide) (by decide) (by decide)).1⟩

/-- The move of the AI on a reachable board: a mark of the current player on one Empty
cell, or nothing at all on a board with no free cell. -/
theorem processAIMove_board {g : TicTacToe} (h : Reachable g.board) :
    ((∀ i, i < 9 → cell g.board i = 'X' ∨ cell g.board i = 'O') ∧ processAIMove g = g) ∨
      ∃ i : Nat, i < 9 ∧ isEmptyCell g.board i ∧
        processAIMove g = { g with board := g.board.set i g.currentPlayer } := by
  unfold processAIMove
  simp only [getAIMoveIndex_snd]
  rcases getAIMoveIndex_empty_or_full h with ⟨hm, hfull⟩ | ⟨i, hi, hidx, he⟩
  · left
    refine ⟨hfull, ?_⟩
    simp [hm]
  · right
    refine ⟨i, hi, he, ?_⟩
    have hne : ((getAIMoveIndex g.board).1 != -1) = true := by
      rw [hidx]; simp
    rw [if_pos hne, hidx]
    simp

/-- C13: a turn that is applied changes exactly one Empty cell to the mark of the mover
and nothing else on the board: the AI move of `processAIMove` on a board with an Empty
cell, and an accepted human entry; cells that held X or O before hold the same mark
after. -/
theorem applied_turn_marks_one_cell (g : TicTacToe) (h : Reachable g.board) :
    ((∃ i, i < 9 ∧ isEmptyCell g.board i) →
      ∃ i : Nat, i < 9 ∧ isEmptyCell g.board i ∧
        (processAIMove g).board = g.board.set i g.currentPlayer ∧
        cell (processAIMove g).board i = g.currentPlayer ∧
        ∀ j, j ≠ i → cell (processAIMove g).board j = cell g.board j) ∧
    (∀ entry, (playerMoveAttempt g entry).2 = true →
      ∃ i : Nat, i < 9 ∧ isEmptyCell g.board i ∧
        (playerMoveAttempt g entry).1.board = g.board.set i g.currentPlayer ∧
        cell (playerMoveAttempt g entry).1.board i = g.currentPlayer ∧
        ∀ j, j ≠ i → cell (playerMoveAttempt g entry).1.board j = cell g.board j) ∧
    (∀ j, j < 9 → cell g.board j = 'X' ∨ cell g.board j = 'O' →
      cell (processAIMove g).board j = cell g.board j ∧
      ∀ entry, cell (playerMoveAttempt g entry).1.board j = cell g.board j) := by
  have hset : ∀ (g1 : TicTacToe) (i : Nat), i < 9 →
      g1.board = g.board.set i g.currentPlayer →
      cell g1.board i = g.currentPlayer ∧ ∀ j, j ≠ i → cell g1.board j = cell g.board j := by
    intro g1 i hi hb
    rw [hb]
    exact ⟨cell_set_self _ _ _ (by rw [h.1]; exact hi), fun j hj => cell_set_of_ne _ _ hj⟩
  have hnot : ∀ j, j < 9 → cell g.board j = 'X' ∨ cell g.board j = 'O' →
      ¬ isEmptyCell g.board j := by
    intro j hj ht he
    unfold isEmptyCell at he
    rcases ht with ht | ht
    · exact emptyLabel_ne_X hj (he ▸ ht)
    · exact emptyLabel_ne_O hj (he ▸ ht)
  have hhuman : ∀ entry, (playerMoveAttempt g entry).2 = true →
      ∃ i : Nat, i < 9 ∧ isEmptyCell g.board i ∧
        (playerMoveAttempt g entry).1.board = g.board.set i g.currentPlayer := by
    intro entry ha
    obtain ⟨i, hi, _, hf, heq⟩ := playerMoveAttempt_accepted ha
    exact ⟨i, hi, (isFree_iff_isEmptyCell h hi).1 hf, by rw [heq]⟩
  refine ⟨fun hex => ?_, fun entry ha => ?_, fun j hj ht => ⟨?_, fun entry => ?_⟩⟩
  · rcases processAIMove_board h with ⟨hfull, _⟩ | ⟨i, hi, he, heq⟩
    · obtain ⟨k, hk, hke⟩ := hex
      exact absurd hke (hnot k hk (hfull k hk))
    · have hb : (processAIMove g).board = g.board.set i g.currentPlayer := by rw [heq]
      exact ⟨i, hi, he, hb, hset _ i hi hb⟩
  · obtain ⟨i, hi, he, hb⟩ := hhuman entry ha
    exact ⟨i, hi, he, hb, hset _ i hi hb⟩
  · rcases processAIMove_board h with ⟨_, heq⟩ | ⟨i, hi, he, heq⟩
    · rw [heq]
    · have hb : (processAIMove g).board = g.board.set i g.currentPlayer := by rw [heq]
      have hji : j ≠ i := fun e => hnot j hj ht (e ▸ he)
      exact (hset _ i hi hb).2 j hji
  · cases hacc : (playerMoveAttempt g entry).2 with
    | false => rw [playerMoveAttempt_rejected hacc]
    | true =>
      obtain ⟨i, hi, he, hb⟩ := hhuman entry hacc
      have hji : j ≠ i := fun e => hnot j hj ht (e ▸ he)
      exact (hset _ i hi hb).2 j hji

theorem applied_turn_marks_one_cell_witness :
    Reachable midRound.board ∧
    ∃ i : Nat, i < 9 ∧ isEmptyCell midRound.board i ∧
      (processAIMove midRound).board = midRound.board.set i midRound.currentPlayer ∧
      cell (processAIMove midRound).board i = midRound.currentPlayer ∧
      ∀ j, j ≠ i → cell (processAIMove midRound).board j = cell midRound.board j :=
  ⟨by decide, (applied_turn_marks_one_cell midRound (by decide)).1 ⟨1, by decide, by decide⟩⟩

/-! ## Rounds -/

theorem getPlayerMove_some {g g1 : TicTacToe} {inputs rest : List (Option Int)}
    (h : getPlayerMove g inputs = some (g1, rest)) :
    ∃ i : Nat, i < 9 ∧ isFree g.board i = true ∧
      g1 = { g with board := g.board.set i g.currentPlayer } := by
  induction inputs with
  | nil => simp [getPlayerMove] at h
  | cons entry tail ih =>
    rw [getPlayerMove] at h
    cases hacc : (playerMoveAttempt g entry).2 with
    | true =>
      simp only [hacc, if_true, Option.some.injEq, Prod.mk.injEq] at h
      obtain ⟨i, hi, _, hf, heq⟩ := playerMoveAttempt_accepted hacc
      exact ⟨i, hi, hf, by rw [← h.1, heq]⟩
    | false =>
      simp only [hacc, Bool.false_eq_true, if_false, playerMoveAttempt_rejected hacc] at h
      exact ih h

/-- A pass of the round loop is the state check applied to the state with a new board. -/
theorem playTurn_some {g g1 : TicTacToe} {inputs rest : List (Option Int)}
    (h : playTurn g inputs = some (g1, rest)) :
    ∃ b : Board, g1 = checkGameState { g with board := b } := by
  unfold playTurn at h
  by_cases hx : (g.currentPlayer == 'X') = true
  · simp only [hx, if_true] at h
    cases hm : getPlayerMove g inputs with
    | none => simp [hm] at h
    | some r =>
      obtain ⟨g2, rest2⟩ := r
      simp only [hm, Option.some.injEq, Prod.mk.injEq] at h
      obtain ⟨i, _, _, heq⟩ := getPlayerMove_some hm
      exact ⟨g.board.set i g.currentPlayer, by rw [← h.1, heq]⟩
  · simp only [hx, Bool.false_eq_true, if_false, Option.some.injEq, Prod.mk.injEq] at h
    refine ⟨(processAIMove g).board, ?_⟩
    rw [← h.1]
    congr 1
    simp only [processAIMove]
    split <;> rfl

/-- The state check either decides the round, raising exactly one counter, or leaves the
status and the counters alone and hands the turn to the other side. -/
theorem checkGameState_cases (g : TicTacToe)
    (hp : g.currentPlayer = 'X' ∨ g.currentPlayer = 'O') :
    ((checkGameState g).gameStatus = false ∧ RoundCountedBy incrInt g (checkGameState g) ∧
        (checkGameState g).totalGames = g.totalGames) ∨
      ((checkGameState g).gameStatus = g.gameStatus ∧
        ((checkGameState g).currentPlayer = 'X' ∨ (checkGameState g).currentPlayer = 'O') ∧
        (checkGameState g).playerXWins = g.playerXWins ∧
        (checkGameState g).playerOWins = g.playerOWins ∧
        (checkGameState g).draws = g.draws ∧
        (checkGameState g).totalGames = g.totalGames) := by
  unfold checkGameState RoundCountedBy
  by_cases hw : checkWin g.board = true
  · left
    rw [if_pos hw]
    rcases hp with hp | hp
    · simp [hp, hw]
    · simp [hp, hw]
  · by_cases hd : checkDraw g.board = true
    · left
      rw [if_neg hw, if_pos hd]
      simp [hw, hd]
    · right
      rw [if_neg hw, if_neg hd]
      unfold switchPlayer
      rcases hp with hp | hp <;> simp [hp]

theorem roundLoop_of_decided (fuel : Nat) {g : TicTacToe} (inputs : List (Option Int))
    (h : g.gameStatus = false) : roundLoop fuel g inputs = RoundResult.decided g inputs := by
  cases fuel <;> simp [roundLoop, h]

/-- A round loop entered with the round ongoing, when it ends, has raised exactly one
counter and left `totalGames` alone. -/
theorem roundLoop_counts (fuel : Nat) : ∀ (g : TicTacToe) (inputs : List (Option Int))
    (g1 : TicTacToe) (rest : List (Option Int)), g.gameStatus = true →
    (g.currentPlayer = 'X' ∨ g.currentPlayer = 'O') →
    roundLoop fuel g inputs = RoundResult.decided g1 rest →
    g1.gameStatus = false ∧ g1.totalGames = g.totalGames ∧ RoundCountedBy incrInt g g1 := by
  induction fuel with
  | zero =>
    intro g inputs g1 rest hs _ h
    simp [roundLoop, hs] at h
  | succ n ih =>
    intro g inputs g1 rest hs hp h
    rw [roundLoop, if_pos hs] at h
    cases ht : playTurn g inputs with
    | none => simp [ht] at h
    | some r =>
      obtain ⟨g2, rest2⟩ := r
      simp only [ht] at h
      obtain ⟨b, hb⟩ := playTurn_some ht
      have hc := checkGameState_cases { g with board := b } hp
      rw [← hb] at hc
      rcases hc with ⟨hdone, hcount, htot⟩ | ⟨hstat, hp2, hx, ho, hd, htot⟩
      · rw [roundLoop_of_decided n rest2 hdone] at h
        injection h with h1 _
        subst h1
        exact ⟨hdone, htot, hcount⟩
      · have hs2 : g2.gameStatus = true := by rw [hstat]; exact hs
        obtain ⟨hfin, htot2, hcount⟩ := ih g2 rest2 g1 rest hs2 hp2 h
        refine ⟨hfin, htot2.trans htot, ?_⟩
        unfold RoundCountedBy at hcount ⊢
        simp only [hx, ho, hd] at hcount
        exact hcount

/-- A completed round has passed `totalGames` and exactly one outcome counter through the
increment of `int`. -/
theorem playRound_counts {fuel : Nat} {g g1 : TicTacToe} {inputs rest : List (Option Int)}
    (h : playRound fuel g inputs = RoundResult.decided g1 rest) :
    g1.gameStatus = false ∧ g1.totalGames = incrInt g.totalGames ∧
      RoundCountedBy incrInt g g1 := by
  unfold playRound at h
  exact roundLoop_counts fuel _ inputs g1 rest rfl (Or.inl rfl) h

theorem incrInt_of_lt {n : Int} (h1 : -2147483648 ≤ n) (h2 : n < 2147483647) :
    incrInt n = n + 1 := by
  unfold incrInt
  omega

/-- The round in which the human enters 1, 9, 7 and 8 against the AI. -/
theorem xWin_round :
    playRound 9 freshObject [some 1, some 9, some 7, some 8] =
      RoundResult.decided afterXWin [] := by decide

/-! ## Marks on the board -/

theorem count_set_of_ne (board : Board) (i : Nat) (a c : Char) (hi : i < board.length)
    (hne : cell board i ≠ c) :
    (board.set i a).count c = board.count c + if a = c then 1 else 0 := by
  unfold cell at hne
  induction board generalizing i with
  | nil => simp at hi
  | cons x xs ih =>
    cases i with
    | zero =>
      have hx : x ≠ c := by simpa using hne
      simp only [List.set_cons_zero, List.count_cons, beq_iff_eq, if_neg hx]
      omega
    | succ n =>
      have hn : n < xs.length := by simpa using hi
      have := ih n hn (by simpa using hne)
      simp only [List.set_cons_succ, List.count_cons, this]
      omega

theorem marks_add_rest (board : Board) :
    marks board 'X' + marks board 'O' +
      board.countP (fun c => c != 'X' && c != 'O') = board.length := by
  unfold marks
  induction board with
  | nil => rfl
  | cons x xs ih =>
    simp only [List.count_cons, List.countP_cons, List.length_cons]
    by_cases hx : x = 'X'
    · subst hx
      simp
      omega
    · by_cases ho : x = 'O'
      · subst ho
        simp
        omega
      · simp [hx, ho]
        omega

theorem marks_le (board : Board) : marks board 'X' + marks board 'O' ≤ board.length := by
  have := marks_add_rest board
  omega

theorem marks_lt_of_empty {board : Board} (h : Reachable board)
    (he : ∃ i, i < 9 ∧ isEmptyCell board i) : marks board 'X' + marks board 'O' < 9 := by
  obtain ⟨i, hi, hie⟩ := he
  have hlen : i < board.length := by rw [h.1]; exact hi
  have hpos : 0 < board.countP (fun c => c != 'X' && c != 'O') := by
    rw [List.countP_pos_iff]
    refine ⟨cell board i, ?_, ?_⟩
    · rw [cell_eq_getElem board hlen]; exact List.getElem_mem hlen
    · exact isFree_of_isEmptyCell hi hie
  have := marks_add_rest board
  rw [h.1] at this
  omega

/-- A mark placed on an Empty cell adds one to the marks of its side and leaves the marks
of the other side as they were. -/
theorem marks_set {board : Board} {i : Nat} (hi : i < 9) (he : isEmptyCell board i)
    (side : Char) {other : Char} (ho : other = 'X' ∨ other = 'O') :
    marks (board.set i side) other =
      marks board other + if side = other then 1 else 0 := by
  rcases ho with rfl | rfl
  · exact count_set_of_ne board i side 'X' (lt_length_of_isEmptyCell hi he)
      (by rw [he]; exact emptyLabel_ne_X hi)
  · exact count_set_of_ne board i side 'O' (lt_length_of_isEmptyCell hi he)
      (by rw [he]; exact emptyLabel_ne_O hi)

/-! ## The invariant of the round loop -/

theorem checkGameState_board (g : TicTacToe) : (checkGameState g).board = g.board := by
  unfold checkGameState switchPlayer
  split
  · split <;> rfl
  · split <;> rfl

theorem checkGameState_decided {g : TicTacToe}
    (h : checkWin g.board = true ∨ checkDraw g.board = true) :
    (checkGameState g).gameStatus = false ∧
      (checkGameState g).currentPlayer = g.currentPlayer := by
  unfold checkGameState
  by_cases hw : checkWin g.board = true
  · rw [if_pos hw]
    split <;> exact ⟨rfl, rfl⟩
  · have hd : checkDraw g.board = true := h.resolve_left hw
    rw [if_neg hw, if_pos hd]
    exact ⟨rfl, rfl⟩

theorem checkGameState_ongoing {g : TicTacToe} (hw : ¬ checkWin g.board = true)
    (hd : ¬ checkDraw g.board = true) : checkGameState g = switchPlayer g := by
  unfold checkGameState
  rw [if_neg hw, if_neg hd]

theorem roundInv_initializeBoard (g0 : TicTacToe) (h : g0.board.length = 9) :
    RoundInv (initializeBoard g0) := by
  have hb : (initializeBoard g0).board = ['1', '2', '3', '4', '5', '6', '7', '8', '9'] :=
    initializeCells_eq g0.board h
  have hs : (initializeBoard g0).gameStatus = true := rfl
  unfold RoundInv
  rw [hb]
  refine ⟨by decide, Or.inl rfl, fun _ => ⟨by decide, ⟨0, by decide, by decide⟩,
    Or.inl ⟨rfl, by decide⟩⟩, fun hf => ?_, by decide, by decide⟩
  rw [hs] at hf
  exact absurd hf (by decide)

/-- A pass of the round loop from an ongoing state places the mark of the side to move on
an Empty cell and then runs the state check. -/
theorem playTurn_move {g g1 : TicTacToe} {inputs rest : List (Option Int)}
    (hinv : RoundInv g) (hs : g.gameStatus = true)
    (h : playTurn g inputs = some (g1, rest)) :
    ∃ i : Nat, i < 9 ∧ isEmptyCell g.board i ∧
      g1 = checkGameState { g with board := g.board.set i g.currentPlayer } := by
  obtain ⟨hr, _, hon, _, _, _⟩ := hinv
  obtain ⟨_, ⟨k, hk, hke⟩, _⟩ := hon hs
  unfold playTurn at h
  by_cases hx : (g.currentPlayer == 'X') = true
  · simp only [hx, if_true] at h
    cases hm : getPlayerMove g inputs with
    | none => simp [hm] at h
    | some r =>
      obtain ⟨g2, rest2⟩ := r
      simp only [hm, Option.some.injEq, Prod.mk.injEq] at h
      obtain ⟨i, hi, hf, heq⟩ := getPlayerMove_some hm
      exact ⟨i, hi, (isFree_iff_isEmptyCell hr hi).1 hf, by rw [← h.1, heq]⟩
  · simp only [hx, Bool.false_eq_true, if_false, Option.some.injEq, Prod.mk.injEq] at h
    rcases processAIMove_board hr with ⟨hfull, _⟩ | ⟨i, hi, he, heq⟩
    · exfalso
      unfold isEmptyCell at hke
      rcases hfull k hk with ht | ht
      · exact emptyLabel_ne_X hk (hke ▸ ht)
      · exact emptyLabel_ne_O hk (hke ▸ ht)
    · exact ⟨i, hi, he, by rw [← h.1, heq]⟩

theorem exists_empty_of_not_checkDraw {board : Board} (h : Reachable board)
    (hd : ¬ checkDraw board = true) : ∃ i, i < 9 ∧ isEmptyCell board i := by
  by_contra hne
  apply hd
  rw [checkDraw_iff_taken h]
  intro i hi
  rcases h.2 i hi with hx | ho | he
  · exact Or.inl hx
  · exact Or.inr ho
  · exact absurd ⟨i, hi, he⟩ hne

/-- A pass of the round loop keeps the invariant and adds exactly one mark. -/
theorem roundInv_step {g g1 : TicTacToe} {inputs rest : List (Option Int)}
    (hinv : RoundInv g) (hs : g.gameStatus = true)
    (h : playTurn g inputs = some (g1, rest)) :
    RoundInv g1 ∧
      marks g1.board 'X' + marks g1.board 'O' =
        marks g.board 'X' + marks g.board 'O' + 1 := by
  obtain ⟨i, hi, he, heq⟩ := playTurn_move hinv hs h
  obtain ⟨hr, hp, hon, _, _, _⟩ := hinv
  obtain ⟨_, _, hrel⟩ := hon hs
  have hr1 : Reachable (g.board.set i g.currentPlayer) := reachable_set hr hi hp
  have hmX := marks_set hi he g.currentPlayer (Or.inl rfl : 'X' = 'X' ∨ 'X' = 'O')
  have hmO := marks_set hi he g.currentPlayer (Or.inr rfl : 'O' = 'X' ∨ 'O' = 'O')
  have hb : g1.board = g.board.set i g.currentPlayer := by
    rw [heq, checkGameState_board]
  have hcount : marks g1.board 'X' = marks g.board 'X' + (if g.currentPlayer = 'X' then 1 else 0) ∧
      marks g1.board 'O' = marks g.board 'O' + (if g.currentPlayer = 'O' then 1 else 0) := by
    rw [hb]; exact ⟨hmX, hmO⟩
  have hXO : ¬ ('X' = 'O') := by decide
  have hOX : ¬ ('O' = 'X') := by decide
  by_cases hd : checkWin (g.board.set i g.currentPlayer) = true ∨
      checkDraw (g.board.set i g.currentPlayer) = true
  · have hfin := checkGameState_decided
      (g := { g with board := g.board.set i g.currentPlayer }) hd
    rw [← heq] at hfin
    have hstat : g1.gameStatus = false := hfin.1
    have hcur : g1.currentPlayer = g.currentPlayer := hfin.2
    refine ⟨⟨hb ▸ hr1, hcur ▸ hp, fun ht => ?_, fun _ => hb ▸ hd, ?_, ?_⟩, ?_⟩
    · rw [hstat] at ht
      exact absurd ht (by decide)
    all_goals
      rcases hrel with ⟨hc, hm⟩ | ⟨hc, hm⟩ <;>
        simp only [hc, hXO, hOX, if_true, if_false] at hcount <;> omega
  · have hw : ¬ checkWin (g.board.set i g.currentPlayer) = true := fun e => hd (Or.inl e)
    have hdr : ¬ checkDraw (g.board.set i g.currentPlayer) = true := fun e => hd (Or.inr e)
    have hsw : g1 = switchPlayer { g with board := g.board.set i g.currentPlayer } := by
      rw [heq]; exact checkGameState_ongoing hw hdr
    have hstat : g1.gameStatus = g.gameStatus := by rw [hsw]; rfl
    have hcur : g1.currentPlayer = if g.currentPlayer == 'X' then 'O' else 'X' := by
      rw [hsw]; rfl
    have hnl : ¬ hasWinningLine g1.board := by
      rw [hb]
      exact fun e => hw ((checkWin_iff_hasWinningLine hr1).2 e)
    have hex : ∃ k, k < 9 ∧ isEmptyCell g1.board k := by
      rw [hb]
      exact exists_empty_of_not_checkDraw hr1 hdr
    refine ⟨⟨hb ▸ hr1, ?_, fun _ => ⟨hnl, hex, ?_⟩, fun hf => ?_, ?_, ?_⟩, ?_⟩
    · rw [hcur]
      rcases hp with hp | hp <;> simp [hp]
    · rcases hrel with ⟨hc, hm⟩ | ⟨hc, hm⟩
      · right
        simp only [hc, hXO, hOX, if_true, if_false] at hcount
        refine ⟨by rw [hcur, hc]; rfl, by omega⟩
      · left
        simp only [hc, hXO, hOX, if_true, if_false] at hcount
        refine ⟨by rw [hcur, hc]; rfl, by omega⟩
    · rw [hstat, hs] at hf
      exact absurd hf (by decide)
    all_goals
      rcases hrel with ⟨hc, hm⟩ | ⟨hc, hm⟩ <;>
        simp only [hc, hXO, hOX, if_true, if_false] at hcount <;> omega

theorem roundInv_of_inRound {g : TicTacToe} (h : InRound g) : RoundInv g := by
  induction h with
  | start g0 h9 => exact roundInv_initializeBoard g0 h9
  | turn _ hs ht ih => exact (roundInv_step ih hs ht).1

/-- C15: at the head of the round loop, whenever the round is still ongoing (so that the
human or the AI is asked for a move), the board has an Empty cell, is not full, and shows
no complete line. -/
theorem move_asked_only_on_open_board (g : TicTacToe) (h : InRound g)
    (hs : g.gameStatus = true) :
    (∃ i, i < 9 ∧ isEmptyCell g.board i) ∧ checkDraw g.board = false ∧
      ¬ hasWinningLine g.board ∧ checkWin g.board = false := by
  obtain ⟨hr, _, hon, _, _, _⟩ := roundInv_of_inRound h
  obtain ⟨hnl, hex, _⟩ := hon hs
  refine ⟨hex, ?_, hnl, ?_⟩
  · cases hd : checkDraw g.board with
    | false => rfl
    | true =>
      obtain ⟨k, hk, hke⟩ := hex
      unfold isEmptyCell at hke
      rcases (checkDraw_iff_taken hr).1 hd k hk with ht | ht
      · exact absurd (hke ▸ ht) (emptyLabel_ne_X hk)
      · exact absurd (hke ▸ ht) (emptyLabel_ne_O hk)
  · cases hw : checkWin g.board with
    | false => rfl
    | true => exact absurd ((checkWin_iff_hasWinningLine hr).1 hw) hnl

theorem move_asked_only_on_open_board_witness :
    InRound (initializeBoard usedBoard) ∧
    (∃ i, i < 9 ∧ isEmptyCell (initializeBoard usedBoard).board i) ∧
      checkDraw (initializeBoard usedBoard).board = false ∧
      ¬ hasWinningLine (initializeBoard usedBoard).board ∧
      checkWin (initializeBoard usedBoard).board = false :=
  ⟨InRound.start usedBoard (by decide),
    move_asked_only_on_open_board (initializeBoard usedBoard)
      (InRound.start usedBoard (by decide)) rfl⟩

/-! ## The round ends -/

/-- With as many passes allowed as cells are still unmarked, the loop does not run out of
passes. -/
theorem roundLoop_fuel (fuel : Nat) : ∀ (g : TicTacToe) (inputs : List (Option Int)),
    RoundInv g → 9 ≤ marks g.board 'X' + marks g.board 'O' + fuel →
    roundLoop fuel g inputs ≠ RoundResult.outOfFuel := by
  induction fuel with
  | zero =>
    intro g inputs hinv hm
    cases hs : g.gameStatus with
    | false => simp [roundLoop, hs]
    | true =>
      have := marks_lt_of_empty hinv.1 (hinv.2.2.1 hs).2.1
      omega
  | succ n ih =>
    intro g inputs hinv hm
    cases hs : g.gameStatus with
    | false => simp [roundLoop, hs]
    | true =>
      rw [roundLoop, if_pos hs]
      cases ht : playTurn g inputs with
      | none => simp
      | some r =>
        obtain ⟨g1, rest⟩ := r
        obtain ⟨hinv1, hm1⟩ := roundInv_step hinv hs ht
        exact ih g1 rest hinv1 (by omega)

/-- A loop that ends leaves a decided state that satisfies the invariant. -/
theorem roundLoop_decided (fuel : Nat) : ∀ (g : TicTacToe) (inputs : List (Option Int))
    (g1 : TicTacToe) (rest : List (Option Int)), RoundInv g →
    roundLoop fuel g inputs = RoundResult.decided g1 rest →
    RoundInv g1 ∧ g1.gameStatus = false := by
  induction fuel with
  | zero =>
    intro g inputs g1 rest hinv h
    cases hs : g.gameStatus with
    | false =>
      simp only [roundLoop, hs, Bool.false_eq_true, if_false, RoundResult.decided.injEq] at h
      rw [← h.1]
      exact ⟨hinv, hs⟩
    | true => simp [roundLoop, hs] at h
  | succ n ih =>
    intro g inputs g1 rest hinv h
    cases hs : g.gameStatus with
    | false =>
      simp only [roundLoop, hs, Bool.false_eq_true, if_false, RoundResult.decided.injEq] at h
      rw [← h.1]
      exact ⟨hinv, hs⟩
    | true =>
      rw [roundLoop, if_pos hs] at h
      cases ht : playTurn g inputs with
      | none => simp [ht] at h
      | some r =>
        obtain ⟨g2, rest2⟩ := r
        simp only [ht] at h
        exact ih g2 rest2 g1 rest (roundInv_step hinv hs ht).1 h

/-- On a grid of nine cells `initializeBoard` leaves every cell Empty (cell `i` holds its
label), X to move and the round ongoing, and does not touch the four counters. -/
theorem initializeBoard_resets (g : TicTacToe) (h : g.board.length = 9) :
    (initializeBoard g).board.length = 9 ∧
    (∀ i, i < 9 → cell (initializeBoard g).board i = emptyLabel i) ∧
    (initializeBoard g).currentPlayer = 'X' ∧
    (initializeBoard g).gameStatus = true ∧
    (initializeBoard g).playerXWins = g.playerXWins ∧
    (initializeBoard g).playerOWins = g.playerOWins ∧
    (initializeBoard g).draws = g.draws ∧
    (initializeBoard g).totalGames = g.totalGames := by
  have hb : (initializeBoard g).board = ['1', '2', '3', '4', '5', '6', '7', '8', '9'] :=
    initializeCells_eq g.board h
  rw [hb]
  exact ⟨rfl, by decide, rfl, rfl, rfl, rfl, rfl, rfl⟩

/-- On nine cells every write of `initializeBoard` is inside the vector. -/
theorem initializeCellsChecked_eq (board : Board) (h : board.length = 9) :
    initializeCellsChecked board = some (initializeCells board) := by
  match board, h with
  | [_, _, _, _, _, _, _, _, _], _ => rfl

/-- C16: the code does not do what the claim says on the object as the constructor makes
it.  `board` is then a vector with no cells: the first write of `initializeBoard`,
`board[0] = '1'`, is already outside it, the loop has no defined result, and neither has
the constructor; in the grid that is there no cell holds its label. -/
theorem initializeBoard_writes_outside_vector :
    writeCell [] 0 (emptyLabel 0) = none ∧
    initializeCellsChecked [] = none ∧
    construct = none ∧
    ∀ i, i < 9 → cell (initializeCells []) i ≠ emptyLabel i := by decide

/-- C17: the AI can be beaten.  From an object with nine cells and zero counters, with the
human entering 1, 9, 7 and 8 (cells 0, 8, 6, 7) and the AI answering through
`getAIMoveIndex`, the round ends with row 6,7,8 held by X, the win counted for X, and
every entry used as a move. -/
theorem ai_is_beatable :
    playRound 9 freshObject [some 1, some 9, some 7, some 8] =
      RoundResult.decided afterXWin [] ∧
    freshObject.board.length = 9 ∧
    afterXWin.playerXWins = freshObject.playerXWins + 1 ∧
    afterXWin.playerOWins = freshObject.playerOWins ∧
    lineHeldBy afterXWin.board 'X' (6, 7, 8) ∧
    ¬ threeInLine afterXWin.board 'O' ∧
    marks afterXWin.board 'X' = 4 ∧ marks afterXWin.board 'O' = 3 :=
  ⟨xWin_round, by decide, by decide, by decide, by decide, by decide, by decide, by decide⟩

/-- C18: on the full board X,O,X,O,X,O,O,X,O `checkWin` is false and `checkDraw` is true,
and the state check counts a draw and no win. -/
theorem draw_example_is_draw :
    checkWin drawExample = false ∧ checkDraw drawExample = true ∧
    ∀ g : TicTacToe,
      (checkGameState { g with board := drawExample }).draws = incrInt g.draws ∧
      (checkGameState { g with board := drawExample }).playerXWins = g.playerXWins ∧
      (checkGameState { g with board := drawExample }).playerOWins = g.playerOWins ∧
      (checkGameState { g with board := drawExample }).gameStatus = false := by
  have hw : checkWin drawExample = false := by decide
  have hd : checkDraw drawExample = true := by decide
  refine ⟨hw, hd, fun g => ?_⟩
  simp [checkGameState, hw, hd]

/-- On a reachable board with no complete line `checkPotentialWin` returns true exactly
when the cell is not occupied and the player's mark there gives the player three in a
line; on every reachable board it returns true exactly when the cell is not occupied and
the board with the mark in place shows a complete line of either side. -/
theorem checkPotentialWin_iff (board : Board) (h : Reachable board) (i : Nat) (hi : i < 9)
    (p : Char) (hp : p = 'X' ∨ p = 'O') :
    (¬ hasWinningLine board →
      ((checkPotentialWin board i p).1 = true ↔
        (¬ (cell board i = 'X' ∨ cell board i = 'O') ∧ threeInLine (board.set i p) p))) ∧
    ((checkPotentialWin board i p).1 = true ↔
      (¬ (cell board i = 'X' ∨ cell board i = 'O') ∧ hasWinningLine (board.set i p))) := by
  have hfree : isEmptyCell board i ↔ ¬ (cell board i = 'X' ∨ cell board i = 'O') := by
    unfold isEmptyCell
    constructor
    · rintro he (ht | ht)
      · exact emptyLabel_ne_X hi (he ▸ ht)
      · exact emptyLabel_ne_O hi (he ▸ ht)
    · intro hn
      rcases h.2 i hi with hx | ho | he
      · exact absurd (Or.inl hx) hn
      · exact absurd (Or.inr ho) hn
      · exact he
  rw [checkPotentialWin_fst]
  refine ⟨fun hn => ?_, ?_⟩
  · rw [winTest_iff_immediateWin h hn hp hi, ← hfree]
    rfl
  · rw [winTest_iff h hp hi, ← hfree]

/-! ## The round reaches a decision -/

theorem playerMoveAttempt_of_empty {g : TicTacToe} {i : Nat} (hi : i < 9)
    (he : isEmptyCell g.board i) : (playerMoveAttempt g (some ((i : Int) + 1))).2 = true := by
  have hr : (decide ((i : Int) + 1 ≥ 1) && decide ((i : Int) + 1 ≤ 9)) = true := by
    simp only [Bool.and_eq_true, decide_eq_true_eq]
    omega
  have hidx : ((i : Int) + 1 - 1).toNat = i := by omega
  have hf := isFree_of_isEmptyCell hi he
  unfold isFree at hf
  simp only [playerMoveAttempt, hr, if_true, hidx, hf]

theorem empty_before_set {board : Board} {i c : Nat} {p : Char} (hp : p = 'X' ∨ p = 'O')
    (hlen : i < board.length) (hc : c < 9) (he : isEmptyCell (board.set i p) c) :
    c ≠ i ∧ isEmptyCell board c := by
  unfold isEmptyCell at he ⊢
  by_cases hci : c = i
  · subst hci
    rw [cell_set_self board c p hlen] at he
    rcases hp with hp | hp
    · exact absurd (he.symm.trans hp) (emptyLabel_ne_X hc)
    · exact absurd (he.symm.trans hp) (emptyLabel_ne_O hc)
  · exact ⟨hci, by rwa [cell_set_of_ne board p hci] at he⟩

/-- While an Empty cell is still named on the console, `getPlayerMove` finds a valid entry,
and the cells left Empty are still named by what it leaves unread. -/
theorem getPlayerMove_supplied {g : TicTacToe} (hr : Reachable g.board)
    (hp : g.currentPlayer = 'X' ∨ g.currentPlayer = 'O')
    (hex : ∃ i, i < 9 ∧ isEmptyCell g.board i) :
    ∀ inputs : List (Option Int), Supplied g inputs →
      ∃ (g1 : TicTacToe) (rest : List (Option Int)),
        getPlayerMove g inputs = some (g1, rest) ∧ Supplied g1 rest := by
  intro inputs
  induction inputs with
  | nil =>
    intro hsup
    obtain ⟨i, hi, he⟩ := hex
    exact absurd (hsup i hi he) (List.not_mem_nil _)
  | cons entry tail ih =>
    intro hsup
    rw [getPlayerMove]
    cases hacc : (playerMoveAttempt g entry).2 with
    | true =>
      obtain ⟨i, hi, hentry, _, heq⟩ := playerMoveAttempt_accepted hacc
      refine ⟨(playerMoveAttempt g entry).1, tail, by simp, fun c hc hec => ?_⟩
      rw [heq] at hec
      obtain ⟨hci, hecg⟩ := empty_before_set hp (by rw [hr.1]; exact hi) hc hec
      rcases List.mem_cons.1 (hsup c hc hecg) with hhead | htail
      · exfalso
        rw [hentry] at hhead
        injection hhead with hhead
        omega
      · exact htail
    | false =>
      have hsup2 : Supplied g tail := by
        intro c hc hec
        rcases List.mem_cons.1 (hsup c hc hec) with hhead | htail
        · rw [← hhead, playerMoveAttempt_of_empty hc hec] at hacc
          exact absurd hacc (by decide)
        · exact htail
      simp only [Bool.false_eq_true, if_false, playerMoveAttempt_rejected hacc]
      exact ih hsup2

/-- A pass of the round loop from an ongoing state goes through when every Empty cell is
still named on the console, and leaves the console in that condition. -/
theorem playTurn_supplied {g : TicTacToe} {inputs : List (Option Int)}
    (hinv : RoundInv g) (hs : g.gameStatus = true) (hsup : Supplied g inputs) :
    ∃ (g1 : TicTacToe) (rest : List (Option Int)),
      playTurn g inputs = some (g1, rest) ∧ Supplied g1 rest := by
  obtain ⟨hr, hp, hon, _, _, _⟩ := hinv
  obtain ⟨_, hex, _⟩ := hon hs
  unfold playTurn
  by_cases hx : (g.currentPlayer == 'X') = true
  · simp only [hx, if_true]
    obtain ⟨g2, rest, hm, hsup2⟩ := getPlayerMove_supplied hr hp hex inputs hsup
    refine ⟨checkGameState g2, rest, by rw [hm], fun c hc hec => ?_⟩
    rw [checkGameState_board] at hec
    exact hsup2 c hc hec
  · simp only [hx, Bool.false_eq_true, if_false]
    refine ⟨checkGameState (processAIMove g), inputs, rfl, fun c hc hec => ?_⟩
    rw [checkGameState_board] at hec
    rcases processAIMove_board hr with ⟨_, heq⟩ | ⟨i, hi, _, heq⟩
    · rw [heq] at hec
      exact hsup c hc hec
    · rw [heq] at hec
      exact hsup c hc (empty_before_set hp (by rw [hr.1]; exact hi) hc hec).2

/-- With as many passes allowed as cells are still unmarked, and every Empty cell named on
the console, the round loop ends with a decision. -/
theorem roundLoop_decides (fuel : Nat) : ∀ (g : TicTacToe) (inputs : List (Option Int)),
    RoundInv g → Supplied g inputs → 9 ≤ marks g.board 'X' + marks g.board 'O' + fuel →
    ∃ (g1 : TicTacToe) (rest : List (Option Int)),
      roundLoop fuel g inputs = RoundResult.decided g1 rest := by
  induction fuel with
  | zero =>
    intro g inputs hinv _ hm
    cases hs : g.gameStatus with
    | false => exact ⟨g, inputs, roundLoop_of_decided 0 inputs hs⟩
    | true =>
      have := marks_lt_of_empty hinv.1 (hinv.2.2.1 hs).2.1
      omega
  | succ n ih =>
    intro g inputs hinv hsup hm
    cases hs : g.gameStatus with
    | false => exact ⟨g, inputs, roundLoop_of_decided (n + 1) inputs hs⟩
    | true =>
      obtain ⟨g1, rest, ht, hsup1⟩ := playTurn_supplied hinv hs hsup
      obtain ⟨hinv1, hm1⟩ := roundInv_step hinv hs ht
      obtain ⟨g2, rest2, h2⟩ := ih g1 rest hinv1 hsup1 (by omega)
      refine ⟨g2, rest2, ?_⟩
      rw [roundLoop, if_pos hs, ht]
      exact h2

theorem supplied_of_namesEveryCell (g : TicTacToe) {inputs : List (Option Int)}
    (h : NamesEveryCell inputs) : Supplied g inputs :=
  fun i hi _ => h i hi

/-- A round played on nine cells from a console that names every cell is decided within
nine passes. -/
theorem playRound_decides (g : TicTacToe) (h9 : g.board.length = 9)
    {inputs : List (Option Int)} (h : NamesEveryCell inputs) :
    ∃ (g1 : TicTacToe) (rest : List (Option Int)),
      playRound 9 g inputs = RoundResult.decided g1 rest := by
  unfold playRound
  exact roundLoop_decides 9 _ inputs (roundInv_initializeBoard _ h9)
    (supplied_of_namesEveryCell _ h) (by omega)

/-- A valid entry of the human is taken as the move of one pass, and a pass of the AI
reads nothing from the console. -/
theorem playTurn_goes_through (g : TicTacToe) :
    (g.currentPlayer = 'X' → ∀ (m : Int) (rest : List (Option Int)), 1 ≤ m → m ≤ 9 →
      isEmptyCell g.board (m - 1).toNat →
      ∃ g1 : TicTacToe, playTurn g (some m :: rest) = some (g1, rest) ∧
        g1.board = g.board.set (m - 1).toNat 'X') ∧
    (g.currentPlayer = 'O' → ∀ ins : List (Option Int),
      ∃ g1 : TicTacToe, playTurn g ins = some (g1, ins)) := by
  refine ⟨fun hx m rest h1 h9 he => ?_, fun ho ins => ?_⟩
  · have hi : (m - 1).toNat < 9 := by omega
    have hm : m = (((m - 1).toNat : Nat) : Int) + 1 := by omega
    have hacc : (playerMoveAttempt g (some m)).2 = true := by
      rw [hm]
      have := playerMoveAttempt_of_empty (g := g) hi he
      simpa using this
    obtain ⟨i, _, hentry, _, heq⟩ := playerMoveAttempt_accepted hacc
    have hidx : i = (m - 1).toNat := by
      injection hentry with hentry
      omega
    refine ⟨checkGameState (playerMoveAttempt g (some m)).1, ?_, ?_⟩
    · unfold playTurn
      have hb : (g.currentPlayer == 'X') = true := by rw [hx]; rfl
      simp only [hb, if_true]
      rw [getPlayerMove]
      simp only [hacc, if_true]
    · rw [checkGameState_board, heq, hidx, hx]
  · refine ⟨checkGameState (processAIMove g), ?_⟩
    unfold playTurn
    have hb : (g.currentPlayer == 'X') = false := by rw [ho]; rfl
    simp only [hb, Bool.false_eq_true, if_false]

/-- C20: a round started by `initializeBoard` on nine cells is over within nine passes of
the round loop: nine passes never run out, whatever is entered; when the console names
every cell, so that a valid move is always still to come, the loop ends with a decision;
a round that ends is decided by a win or a full board with at most 5 marks of X and 4 of
O; each pass adds exactly one mark; and every valid entry of the human is taken as the
move of one pass, while a pass of the AI reads no entry. -/
theorem round_ends_within_nine_turns (g0 : TicTacToe) (h9 : g0.board.length = 9)
    (inputs : List (Option Int)) :
    roundLoop 9 (initializeBoard g0) inputs ≠ RoundResult.outOfFuel ∧
    (NamesEveryCell inputs →
      ∃ (g1 : TicTacToe) (rest : List (Option Int)),
        roundLoop 9 (initializeBoard g0) inputs = RoundResult.decided g1 rest) ∧
    (∀ g1 rest, roundLoop 9 (initializeBoard g0) inputs = RoundResult.decided g1 rest →
      g1.gameStatus = false ∧ (checkWin g1.board = true ∨ checkDraw g1.board = true) ∧
      marks g1.board 'X' ≤ 5 ∧ marks g1.board 'O' ≤ 4) ∧
    (∀ (g : TicTacToe) (ins : List (Option Int)) (g1 : TicTacToe) (rest : List (Option Int)),
      InRound g → g.gameStatus = true → playTurn g ins = some (g1, rest) →
      marks g1.board 'X' + marks g1.board 'O' = marks g.board 'X' + marks g.board 'O' + 1) ∧
    (∀ g : TicTacToe, InRound g → g.gameStatus = true →
      (g.currentPlayer = 'X' → ∀ (m : Int) (rest : List (Option Int)), 1 ≤ m → m ≤ 9 →
        isEmptyCell g.board (m - 1).toNat →
        ∃ g1 : TicTacToe, playTurn g (some m :: rest) = some (g1, rest) ∧
          g1.board = g.board.set (m - 1).toNat 'X') ∧
      (g.currentPlayer = 'O' → ∀ ins : List (Option Int),
        ∃ g1 : TicTacToe, playTurn g ins = some (g1, ins))) := by
  have hinv := roundInv_initializeBoard g0 h9
  refine ⟨roundLoop_fuel 9 _ inputs hinv (by omega),
    fun hn => roundLoop_decides 9 _ inputs hinv (supplied_of_namesEveryCell _ hn) (by omega),
    fun g1 rest h => ?_,
    fun g ins g1 rest hin hs ht => (roundInv_step (roundInv_of_inRound hin) hs ht).2,
    fun g _ _ => playTurn_goes_through g⟩
  obtain ⟨⟨hr, _, _, hoff, hle1, hle2⟩, hs⟩ := roundLoop_decided 9 _ inputs g1 rest hinv h
  have hlen := marks_le g1.board
  rw [hr.1] at hlen
  exact ⟨hs, hoff hs, by omega, by omega⟩

theorem round_ends_within_nine_turns_witness :
    usedBoard.board.length = 9 ∧ NamesEveryCell everyCell ∧
    ∃ (g1 : TicTacToe) (rest : List (Option Int)),
      roundLoop 9 (initializeBoard usedBoard) everyCell = RoundResult.decided g1 rest ∧
      g1.gameStatus = false ∧ (checkWin g1.board = true ∨ checkDraw g1.board = true) ∧
      marks g1.board 'X' ≤ 5 ∧ marks g1.board 'O' ≤ 4 := by
  have h := round_ends_within_nine_turns usedBoard (by decide) everyCell
  obtain ⟨g1, rest, hd⟩ := h.2.1 (by decide)
  exact ⟨by decide, by decide, g1, rest, hd, h.2.2.1 g1 rest hd⟩

/-! ## Counting the rounds -/

/-- A round played while the counters are consistent and `totalGames` is below the last
value of an `int` raises `totalGames` and exactly one outcome counter by one and keeps
the counters consistent. -/
theorem playRound_counts_in_range {fuel : Nat} {g g1 : TicTacToe}
    {inputs rest : List (Option Int)}
    (h : playRound fuel g inputs = RoundResult.decided g1 rest)
    (hx : 0 ≤ g.playerXWins) (ho : 0 ≤ g.playerOWins) (hd : 0 ≤ g.draws)
    (hsum : g.totalGames = g.playerXWins + g.playerOWins + g.draws)
    (hlt : g.totalGames < 2147483647) :
    g1.totalGames = g.totalGames + 1 ∧ RoundCounted g g1 ∧
      0 ≤ g1.playerXWins ∧ 0 ≤ g1.playerOWins ∧ 0 ≤ g1.draws ∧
      g1.totalGames = g1.playerXWins + g1.playerOWins + g1.draws := by
  obtain ⟨_, ht, hc⟩ := playRound_counts h
  rw [incrInt_of_lt (by omega) hlt] at ht
  unfold RoundCounted
  unfold RoundCountedBy at hc ⊢
  rcases hc with ⟨a, b, c, d, e⟩ | ⟨a, b, c, d, e⟩ | ⟨a, b, c, d, e⟩
  · rw [incrInt_of_lt (by omega) (by omega)] at c
    exact ⟨ht, Or.inl ⟨a, b, c, d, e⟩, by omega, by omega, by omega, by omega⟩
  · rw [incrInt_of_lt (by omega) (by omega)] at c
    exact ⟨ht, Or.inr (Or.inl ⟨a, b, c, d, e⟩), by omega, by omega, by omega, by omega⟩
  · rw [incrInt_of_lt (by omega) (by omega)] at c
    exact ⟨ht, Or.inr (Or.inr ⟨a, b, c, d, e⟩), by omega, by omega, by omega, by omega⟩

/-- After `n` completed rounds the grid has nine cells and, up to the last value of an
`int`, `totalGames` is `n` and equals the sum of the three outcome counters. -/
theorem afterRounds_inv {n : Nat} {g : TicTacToe} (h : AfterRounds n g) :
    g.board.length = 9 ∧
      (n ≤ 2147483647 → g.totalGames = (n : Int) ∧ 0 ≤ g.playerXWins ∧
        0 ≤ g.playerOWins ∧ 0 ≤ g.draws ∧
        g.totalGames = g.playerXWins + g.playerOWins + g.draws) := by
  induction h with
  | fresh g h9 hx ho hd ht =>
    refine ⟨h9, fun _ => ?_⟩
    rw [hx, ho, hd, ht]
    simp
  | @round n g g1 fuel inputs rest _ hr ih =>
    refine ⟨?_, fun hn => ?_⟩
    · unfold playRound at hr
      exact (roundLoop_decided fuel _ inputs g1 rest
        (roundInv_initializeBoard { g with totalGames := incrInt g.totalGames } ih.1)
        hr).1.1.1
    · obtain ⟨ht, hx, ho, hd, hsum⟩ := ih.2 (by omega)
      obtain ⟨ht1, _, hx1, ho1, hd1, hsum1⟩ :=
        playRound_counts_in_range hr hx ho hd hsum (by omega)
      refine ⟨?_, hx1, ho1, hd1, hsum1⟩
      rw [ht1, ht]
      push_cast
      rfl

/-- C14 as stated fails once the counters reach the last value of an `int`: from a state
with 2147483647 rounds counted and consistent counters, a completed round won by X leaves
`totalGames` at -2147483648, not one more, and no longer the sum of the outcome
counters. -/
theorem round_counter_wraps :
    lastRoundStart.board.length = 9 ∧
    lastRoundStart.totalGames =
      lastRoundStart.playerXWins + lastRoundStart.playerOWins + lastRoundStart.draws ∧
    playRound 9 lastRoundStart [some 1, some 9, some 7, some 8] =
      RoundResult.decided lastRoundEnd [] ∧
    lastRoundEnd.totalGames ≠ lastRoundStart.totalGames + 1 ∧
    lastRoundEnd.totalGames ≠
      lastRoundEnd.playerXWins + lastRoundEnd.playerOWins + lastRoundEnd.draws := by
  decide

/-- C14 amended: from an object with nine cells and zero counters, after `n` completed
rounds with `n` below 2147483647, `totalGames` is `n` and the sum of the three outcome
counters; the next round is completed on every console that names every cell; and every
completed next round raises `totalGames` by one and exactly one outcome counter by one,
the one matching the outcome, so that the sum holds again. -/
theorem round_counted_once (n : Nat) (g : TicTacToe) (hg : AfterRounds n g)
    (hn : n < 2147483647) :
    g.totalGames = (n : Int) ∧
    g.totalGames = g.playerXWins + g.playerOWins + g.draws ∧
    (∀ inputs : List (Option Int), NamesEveryCell inputs →
      ∃ (g1 : TicTacToe) (rest : List (Option Int)),
        playRound 9 g inputs = RoundResult.decided g1 rest) ∧
    (∀ (fuel : Nat) (inputs : List (Option Int)) (g1 : TicTacToe) (rest : List (Option Int)),
      playRound fuel g inputs = RoundResult.decided g1 rest →
        g1.totalGames = g.totalGames + 1 ∧ RoundCounted g g1 ∧
        g1.totalGames = g1.playerXWins + g1.playerOWins + g1.draws) := by
  obtain ⟨h9, hinv⟩ := afterRounds_inv hg
  obtain ⟨ht, hx, ho, hd, hsum⟩ := hinv (by omega)
  refine ⟨ht, hsum, fun inputs hin => playRound_decides g h9 hin,
    fun fuel inputs g1 rest h => ?_⟩
  obtain ⟨ht1, hc, _, _, _, hsum1⟩ :=
    playRound_counts_in_range h hx ho hd hsum (by omega)
  exact ⟨ht1, hc, hsum1⟩

theorem round_counted_once_witness :
    AfterRounds 0 freshObject ∧
    ∃ (g1 : TicTacToe) (rest : List (Option Int)),
      playRound 9 freshObject everyCell = RoundResult.decided g1 rest ∧
      g1.totalGames = freshObject.totalGames + 1 ∧ RoundCounted freshObject g1 ∧
      g1.totalGames = g1.playerXWins + g1.playerOWins + g1.draws := by
  have hf : AfterRounds 0 freshObject := AfterRounds.fresh freshObject rfl rfl rfl rfl rfl
  have h := round_counted_once 0 freshObject hf (by decide)
  obtain ⟨g1, rest, hd⟩ := h.2.2.1 everyCell (by decide)
  exact ⟨hf, g1, rest, hd, h.2.2.2 9 everyCell g1 rest hd⟩

end TicTacToe
